import Mathlib

/-!
Verification of the discrete-event exchange simulator (`simulator.py`) and its
analytics collaborator (`get_info.py`).

Python floats (timestamps, prices) are modelled as rationals; the `±np.inf`
sentinels become the `⊥`/`⊤` of `WithBot (WithTop ℚ)` (for prices) and the `⊤`
of `WithTop ℚ` (for queue event times).  Fallible operations — `deque.popleft`
on an empty deque, dereferencing `self.md` while it is `None`, a failed
`assert`, popping an empty priority queue — return `none`.

The helper module `utils.py` (event types, `update_best_positions`,
`PriorQueue`) is imported by the simulator but absent from the sources; those
definitions are modelled from the spec and marked as such.
-/

namespace HFTSim

/-- Extended rationals: Python floats together with the `-np.inf` (`⊥`) and
`+np.inf` (`⊤`) sentinels used for prices. -/
abbrev XQ : Type := WithBot (WithTop ℚ)

/-- Embed a finite rational into `XQ`. -/
def fq (q : ℚ) : XQ := ((q : WithTop ℚ) : XQ)

/-- Modelled from the spec: the side tag of orders and trades (`'BID'`/`'ASK'`
strings in the source; `utils.py` is not in the sources). -/
inductive Side : Type
  | BID
  | ASK
deriving DecidableEq

/-- Modelled from the spec: the order kind (`order_type` string in the source:
plain limit vs. post-only). -/
inductive OrderKind : Type
  | LIMIT
  | POST_ONLY
deriving DecidableEq

/-- Trade classification strings of `simulator.py`: `'TAKER'` / `'MAKER'`. -/
inductive TradeKind : Type
  | TAKER
  | MAKER
deriving DecidableEq

/-- Execution venue strings of `simulator.py`: `'BOOK'` / `'TRADE'`. -/
inductive Venue : Type
  | BOOK
  | TRADE
deriving DecidableEq

/-- Modelled from the spec: an anonymous market trade embedded in a market-data
update (exchange timestamp, receive timestamp, aggressor side, size, price). -/
structure AnonTrade : Type where
  exchange_ts : ℚ
  receive_ts : ℚ
  side : Side
  size : ℚ
  price : ℚ
deriving DecidableEq

/-- Modelled from the spec: an order-book snapshot (timestamps plus best-first
lists of (price, volume) pairs for each side). -/
structure OrderbookSnapshotUpdate : Type where
  exchange_ts : ℚ
  receive_ts : ℚ
  asks : List (ℚ × ℚ)
  bids : List (ℚ × ℚ)
deriving DecidableEq

/-- Modelled from the spec: a market-data update — exchange timestamp, receive
timestamp, optional order-book snapshot, optional anonymous trade. -/
structure MdUpdate : Type where
  exchange_ts : ℚ
  receive_ts : ℚ
  orderbook : Option OrderbookSnapshotUpdate
  trade : Option AnonTrade
deriving DecidableEq

/-- Modelled from the spec: a strategy order, with the constructor-argument
order of `Sim.place_order` (`Order(ts, ts + latency, order_id, side, size,
price, order_type)`). -/
structure Order : Type where
  place_ts : ℚ
  exchange_ts : ℚ
  order_id : ℕ
  side : Side
  size : ℚ
  price : ℚ
  type : OrderKind
deriving DecidableEq

/-- Modelled from the spec: a cancel action, with the constructor-argument
order of `Sim.cancel_order` (`CancelOrder(ts, id_to_delete)`). -/
structure CancelOrder : Type where
  exchange_ts : ℚ
  id_to_delete : ℕ
deriving DecidableEq

/-- Modelled from the spec: a fill notification, with the constructor-argument
order used in `simulator.py` (`OwnTrade(place_ts, exchange_ts, receive_ts,
trade_id, order_id, side, size, price, trade_type, execute)`). -/
structure OwnTrade : Type where
  place_ts : ℚ
  exchange_ts : ℚ
  receive_ts : ℚ
  trade_id : ℕ
  order_id : ℕ
  side : Side
  size : ℚ
  price : XQ
  trade_type : TradeKind
  execute : Venue
deriving DecidableEq

/-- The heterogeneous contents of the action queue
(`Deque[Union[Order, CancelOrder]]`). -/
inductive SimAction : Type
  | order (o : Order)
  | cancelOrder (c : CancelOrder)
deriving DecidableEq

/-- The `exchange_ts` of either kind of action. -/
def SimAction.exchange_ts : SimAction → ℚ
  | .order o => o.exchange_ts
  | .cancelOrder c => c.exchange_ts

/-- The heterogeneous contents of the strategy-updates queue
(`Union[OwnTrade, MdUpdate]`). -/
inductive StratUpdate : Type
  | mdUpd (m : MdUpdate)
  | ownTrade (t : OwnTrade)
deriving DecidableEq

/-- Modelled from the spec: the keyed priority queue (`PriorQueue`, a
`SortedDict: receive_ts -> [updates]` in the source, not in src/).  Entries are
kept sorted by key, values sharing a key in insertion order. -/
structure PriorQueue (α : Type) : Type where
  entries : List (ℚ × α)
deriving DecidableEq

/-- The empty priority queue. -/
def PriorQueue.empty {α : Type} : PriorQueue α := ⟨[]⟩

/-- Stable sorted insertion: the new entry goes after every entry whose key is
`≤` the new key. -/
def insertEntry {α : Type} (k : ℚ) (v : α) : List (ℚ × α) → List (ℚ × α)
  | [] => [(k, v)]
  | e :: rest => if k < e.1 then (k, v) :: e :: rest else e :: insertEntry k v rest

/-- Modelled from the spec: `push(key, value)` inserts the value under the key,
preserving insertion order among values sharing a key. -/
def PriorQueue.push {α : Type} (q : PriorQueue α) (k : ℚ) (v : α) : PriorQueue α :=
  ⟨insertEntry k v q.entries⟩

/-- Modelled from the spec: `min_key()` returns the lowest key, or the `+∞`
sentinel if the queue is empty. -/
def PriorQueue.min_key {α : Type} (q : PriorQueue α) : WithTop ℚ :=
  match q.entries with
  | [] => ⊤
  | e :: _ => (e.1 : WithTop ℚ)

/-- Modelled from the spec: `pop()` removes and returns the lowest key together
with the ordered list of values under it, failing on an empty queue. -/
def PriorQueue.pop {α : Type} (q : PriorQueue α) : Option (ℚ × List α × PriorQueue α) :=
  match q.entries with
  | [] => none
  | e :: _ =>
    some (e.1, (q.entries.takeWhile (fun p => p.1 = e.1)).map Prod.snd,
      ⟨q.entries.dropWhile (fun p => p.1 = e.1)⟩)

/-- Modelled from the spec: `update_best_positions` (§4.2 Best-Price Tracker,
not in src/) — if the update carries an order-book snapshot, the new best bid
is the highest bid price present (`-∞` if the bid side is empty) and the new
best ask the lowest ask price present (`+∞` if empty); otherwise both are
unchanged. -/
def update_best_positions (best_bid best_ask : XQ) (md : MdUpdate) : XQ × XQ :=
  match md.orderbook with
  | none => (best_bid, best_ask)
  | some ob =>
    ((ob.bids.map (fun p => fq p.1)).foldr max ⊥,
     (ob.asks.map (fun p => fq p.1)).foldr min ⊤)

/-- Membership test of a Python dict keyed by order id. -/
def dictContains (m : List (ℕ × Order)) (k : ℕ) : Bool :=
  m.any (fun p => p.1 = k)

/-- Assignment `d[k] = v` on a Python dict: replace in place if the key is present,
otherwise append (insertion order preserved). -/
def dictInsert (m : List (ℕ × Order)) (k : ℕ) (v : Order) : List (ℕ × Order) :=
  if dictContains m k then m.map (fun p => if p.1 = k then (k, v) else p)
  else m ++ [(k, v)]

/-- Deletion `d.pop(k)` on a Python dict: remove the entry with the given key. -/
def dictPop (m : List (ℕ × Order)) (k : ℕ) : List (ℕ × Order) :=
  m.filter (fun p => p.1 ≠ k)

/-- The simulator state: the fields of `Sim.__init__` (the progress bar, pure
UI, is omitted). -/
structure Sim : Type where
  md_queue : List MdUpdate
  actions_queue : List SimAction
  strategy_updates_queue : PriorQueue StratUpdate
  ready_to_execute_orders : List (ℕ × Order)
  md : Option MdUpdate
  order_id : ℕ
  trade_id : ℕ
  latency : ℚ
  md_latency : ℚ
  best_bid : XQ
  best_ask : XQ
  trade_price_bid : XQ
  trade_price_ask : XQ
  last_order : Option Order
deriving DecidableEq

/-- Constructor `Sim.__init__`: queues from the input market data, empty action and
notification queues, empty resting map, no current update, zero counters,
`±∞` best prices and last-trade prices, no pending order. -/
def Sim.init (market_data : List MdUpdate) (execution_latency md_latency : ℚ) : Sim where
  md_queue := market_data
  actions_queue := []
  strategy_updates_queue := PriorQueue.empty
  ready_to_execute_orders := []
  md := none
  order_id := 0
  trade_id := 0
  latency := execution_latency
  md_latency := md_latency
  best_bid := ⊥
  best_ask := ⊤
  trade_price_bid := ⊥
  trade_price_ask := ⊤
  last_order := none

/-- Source `get_md_queue_event_time`: `exchange_ts` of the front update, `np.inf` if
the queue is empty. -/
def Sim.get_md_queue_event_time (s : Sim) : WithTop ℚ :=
  match s.md_queue with
  | [] => ⊤
  | m :: _ => (m.exchange_ts : WithTop ℚ)

/-- Source `get_actions_queue_event_time`: `exchange_ts` of the front action, `np.inf`
if the queue is empty. -/
def Sim.get_actions_queue_event_time (s : Sim) : WithTop ℚ :=
  match s.actions_queue with
  | [] => ⊤
  | a :: _ => (a.exchange_ts : WithTop ℚ)

/-- Source `get_strategy_updates_queue_event_time`: the notification queue's minimum
key. -/
def Sim.get_strategy_updates_queue_event_time (s : Sim) : WithTop ℚ :=
  s.strategy_updates_queue.min_key

/-- Write `self.trade_price[side] = p`. -/
def Sim.set_trade_price (s : Sim) (side : Side) (p : ℚ) : Sim :=
  match side with
  | .BID => { s with trade_price_bid := fq p }
  | .ASK => { s with trade_price_ask := fq p }

/-- Read `self.trade_price[side]`. -/
def Sim.trade_price (s : Sim) (side : Side) : XQ :=
  match side with
  | .BID => s.trade_price_bid
  | .ASK => s.trade_price_ask

/-- Source `update_last_trade`: asserts a current update exists (`none` models the
assertion failure), then records the trade price per side if the update
carries a trade. -/
def Sim.update_last_trade (s : Sim) : Option Sim :=
  match s.md with
  | none => none
  | some m =>
    some (match m.trade with
          | none => s
          | some t => s.set_trade_price t.side t.price)

/-- Source `delete_last_trade`: reset both last-trade prices to `±∞`. -/
def Sim.delete_last_trade (s : Sim) : Sim :=
  { s with trade_price_bid := ⊥, trade_price_ask := ⊤ }

/-- Source `update_md`: set the current update, refresh best bid/ask, record the last
trade, and push the update onto the notification queue keyed by its receive
timestamp. -/
def Sim.update_md (s : Sim) (m : MdUpdate) : Option Sim :=
  let s1 : Sim := { s with md := some m }
  let bb_ba := update_best_positions s1.best_bid s1.best_ask m
  let s2 : Sim := { s1 with best_bid := bb_ba.1, best_ask := bb_ba.2 }
  (s2.update_last_trade).map fun s3 =>
    { s3 with strategy_updates_queue :=
        s3.strategy_updates_queue.push m.receive_ts (.mdUpd m) }

/-- Source `update_action`: a place action becomes the pending aggressive order; a
cancel removes its target from the resting map when present. -/
def Sim.update_action (s : Sim) (action : SimAction) : Sim :=
  match action with
  | .order o => { s with last_order := some o }
  | .cancelOrder c =>
    if dictContains s.ready_to_execute_orders c.id_to_delete then
      { s with ready_to_execute_orders := dictPop s.ready_to_execute_orders c.id_to_delete }
    else s

/-- Source `execute_last_order`: try to fill the pending order aggressively.  A buy
fills at best ask when its price exceeds best ask, a sell at best bid when its
price is below best bid; post-only marketable orders are dropped silently;
non-marketable orders enter the resting map.  `none` models the `None`
dereference of `self.md` in the fill branch. -/
def Sim.execute_last_order (s : Sim) : Option Sim :=
  match s.last_order with
  | none => some s
  | some lo =>
    let executed_price : Option XQ :=
      if lo.side = .BID ∧ fq lo.price > s.best_ask then some s.best_ask
      else if lo.side = .ASK ∧ fq lo.price < s.best_bid then some s.best_bid
      else none
    match executed_price with
    | some px =>
      if lo.type ≠ .POST_ONLY then
        match s.md with
        | none => none
        | some m =>
          let own_trade : OwnTrade :=
            { place_ts := lo.place_ts
              exchange_ts := m.exchange_ts
              receive_ts := m.exchange_ts + s.md_latency
              trade_id := s.trade_id
              order_id := lo.order_id
              side := lo.side
              size := lo.size
              price := px
              trade_type := .TAKER
              execute := .BOOK }
          some { s with
                 trade_id := s.trade_id + 1
                 strategy_updates_queue :=
                   s.strategy_updates_queue.push own_trade.receive_ts
                     (.ownTrade own_trade)
                 last_order := none }
      else some { s with last_order := none }
    | none =>
      some { s with
             ready_to_execute_orders :=
               dictInsert s.ready_to_execute_orders lo.order_id lo
             last_order := none }

/-- The `if/elif` chain of `execute_orders` for one resting order: the
executed price (always the order's own limit price) and venue, `none` when the
order does not fill. -/
def Sim.order_fill (s : Sim) (o : Order) : Option (ℚ × Venue) :=
  if o.side = .BID ∧ fq o.price > s.best_ask then some (o.price, .BOOK)
  else if o.side = .ASK ∧ fq o.price < s.best_bid then some (o.price, .BOOK)
  else if o.side = .BID ∧ fq o.price > s.trade_price_ask then some (o.price, .TRADE)
  else if o.side = .ASK ∧ fq o.price < s.trade_price_bid then some (o.price, .TRADE)
  else none

/-- The loop body of `execute_orders`: walk the resting map's items, pushing a
maker trade per filling order and accumulating the ids to delete afterwards. -/
def Sim.execute_orders_go (s : Sim) : List (ℕ × Order) → List ℕ → Option (Sim × List ℕ)
  | [], acc => some (s, acc)
  | (order_id, o) :: rest, acc =>
    match s.order_fill o with
    | none => s.execute_orders_go rest acc
    | some pv =>
      match s.md with
      | none => none
      | some m =>
        let executed_order : OwnTrade :=
          { place_ts := o.place_ts
            exchange_ts := m.exchange_ts
            receive_ts := m.exchange_ts + s.md_latency
            trade_id := s.trade_id
            order_id := order_id
            side := o.side
            size := o.size
            price := fq pv.1
            trade_type := .MAKER
            execute := pv.2 }
        Sim.execute_orders_go
          { s with
            trade_id := s.trade_id + 1
            strategy_updates_queue :=
              s.strategy_updates_queue.push executed_order.receive_ts
                (.ownTrade executed_order) }
          rest (acc ++ [order_id])

/-- Source `execute_orders`: run the passive-resolution pass over the whole resting
map, then delete the filled orders (removal deferred to after the pass). -/
def Sim.execute_orders (s : Sim) : Option Sim :=
  (s.execute_orders_go s.ready_to_execute_orders []).map fun p =>
    { p.1 with ready_to_execute_orders := p.2.foldl dictPop p.1.ready_to_execute_orders }

/-- Closed form of `update_md` (which always succeeds: the assertion of
`update_last_trade` holds because the current update was just set). -/
def Sim.apply_md (s : Sim) (m : MdUpdate) : Sim :=
  let s1 : Sim := { s with md := some m }
  let bb_ba := update_best_positions s1.best_bid s1.best_ask m
  let s2 : Sim := { s1 with best_bid := bb_ba.1, best_ask := bb_ba.2 }
  let s3 : Sim := match m.trade with
                  | none => s2
                  | some t => s2.set_trade_price t.side t.price
  { s3 with strategy_updates_queue :=
      s3.strategy_updates_queue.push m.receive_ts (.mdUpd m) }

theorem Sim.update_md_eq (s : Sim) (m : MdUpdate) :
    s.update_md m = some (s.apply_md m) := by
  cases h : m.trade <;>
    simp [Sim.update_md, Sim.apply_md, Sim.update_last_trade, h]

theorem Sim.set_trade_price_frame (s : Sim) (side : Side) (p : ℚ) :
    (s.set_trade_price side p).md_queue = s.md_queue ∧
    (s.set_trade_price side p).actions_queue = s.actions_queue := by
  cases side <;> simp [Sim.set_trade_price]

theorem Sim.apply_md_frame (s : Sim) (m : MdUpdate) :
    (s.apply_md m).md_queue = s.md_queue ∧
    (s.apply_md m).actions_queue = s.actions_queue := by
  cases h : m.trade with
  | none => simp [Sim.apply_md, h]
  | some t =>
    obtain ⟨ets, rts, side, sz, px⟩ := t
    cases side <;> simp [Sim.apply_md, h, Sim.set_trade_price]

theorem Sim.update_action_frame (s : Sim) (a : SimAction) :
    (s.update_action a).md_queue = s.md_queue ∧
    (s.update_action a).actions_queue = s.actions_queue := by
  cases a with
  | order o => simp [Sim.update_action]
  | cancelOrder c =>
    by_cases h : dictContains s.ready_to_execute_orders c.id_to_delete = true <;>
      simp [Sim.update_action, h]

theorem Sim.execute_last_order_frame (s s' : Sim)
    (h : s.execute_last_order = some s') :
    s'.md_queue = s.md_queue ∧ s'.actions_queue = s.actions_queue := by
  unfold Sim.execute_last_order at h
  repeat' split at h
  all_goals (cases h <;> exact ⟨rfl, rfl⟩)

theorem Sim.execute_orders_go_frame (s : Sim) (items : List (ℕ × Order))
    (acc : List ℕ) (s' : Sim) (ids : List ℕ)
    (h : s.execute_orders_go items acc = some (s', ids)) :
    s'.md_queue = s.md_queue ∧ s'.actions_queue = s.actions_queue ∧
    s'.ready_to_execute_orders = s.ready_to_execute_orders := by
  induction items generalizing s acc with
  | nil =>
    simp [Sim.execute_orders_go] at h
    simp [h.1]
  | cons hd tl ih =>
    obtain ⟨oid, o⟩ := hd
    rw [Sim.execute_orders_go] at h
    split at h
    · exact ih _ _ h
    · cases hmd : s.md with
      | none => rw [hmd] at h; simp at h
      | some m =>
        rw [hmd] at h
        simpa using ih _ _ h

theorem Sim.execute_orders_frame (s s' : Sim)
    (h : s.execute_orders = some s') :
    s'.md_queue = s.md_queue ∧ s'.actions_queue = s.actions_queue := by
  unfold Sim.execute_orders at h
  cases hg : s.execute_orders_go s.ready_to_execute_orders [] with
  | none => simp [hg] at h
  | some p =>
    simp [hg] at h
    obtain ⟨h1, h2, _⟩ := Sim.execute_orders_go_frame s _ _ p.1 p.2 (by simpa using hg)
    subst h
    exact ⟨h1, h2⟩

/-- One iteration of the `while` body of `tick` (past the two `break`
checks): pop and apply the market-data update when its event time is `≤` the
actions', pop and apply the action (and try the aggressive fill) when its
event time is `≤` the market data's, run the passive pass when market data
advanced, and clear the last-trade prices. -/
def Sim.tickStep (s : Sim) : Option Sim :=
  let md_queue_et := s.get_md_queue_event_time
  let actions_queue_et := s.get_actions_queue_event_time
  let s1opt : Option Sim :=
    if md_queue_et ≤ actions_queue_et then
      match s.md_queue with
      | [] => none
      | m :: rest => Sim.update_md { s with md_queue := rest } m
    else some s
  match s1opt with
  | none => none
  | some s1 =>
    let s2opt : Option Sim :=
      if actions_queue_et ≤ md_queue_et then
        match s1.actions_queue with
        | [] => none
        | a :: rest => (Sim.update_action { s1 with actions_queue := rest } a).execute_last_order
      else some s1
    match s2opt with
    | none => none
    | some s2 =>
      let s3opt : Option Sim :=
        if md_queue_et ≤ actions_queue_et then s2.execute_orders else some s2
      s3opt.map Sim.delete_last_trade

theorem Sim.delete_last_trade_frame (s : Sim) :
    (s.delete_last_trade).md_queue = s.md_queue ∧
    (s.delete_last_trade).actions_queue = s.actions_queue :=
  ⟨rfl, rfl⟩

theorem Sim.tickStep_measure (s s' : Sim)
    (hq : ¬(s.get_md_queue_event_time = ⊤ ∧ s.get_actions_queue_event_time = ⊤))
    (h : s.tickStep = some s') :
    s'.md_queue.length + s'.actions_queue.length <
      s.md_queue.length + s.actions_queue.length := by
  by_cases hmd : s.get_md_queue_event_time ≤ s.get_actions_queue_event_time
  · cases hqm : s.md_queue with
    | nil =>
      exfalso
      have h1 : s.get_md_queue_event_time = ⊤ := by
        simp [Sim.get_md_queue_event_time, hqm]
      exact hq ⟨h1, top_le_iff.mp (h1 ▸ hmd)⟩
    | cons m rest =>
      simp only [Sim.tickStep, hmd, if_true, hqm, Sim.update_md_eq] at h
      set t : Sim := Sim.apply_md { s with md_queue := rest } m with ht
      have htmd : t.md_queue = rest := by
        rw [ht]
        exact (Sim.apply_md_frame { s with md_queue := rest } m).1
      have htact : t.actions_queue = s.actions_queue := by
        rw [ht]
        exact (Sim.apply_md_frame { s with md_queue := rest } m).2
      by_cases hact : s.get_actions_queue_event_time ≤ s.get_md_queue_event_time
      · -- tie: both queues advance
        cases hqa : s.actions_queue with
        | nil =>
          exfalso
          have h1 : s.get_actions_queue_event_time = ⊤ := by
            simp [Sim.get_actions_queue_event_time, hqa]
          exact hq ⟨top_le_iff.mp (h1 ▸ hact), h1⟩
        | cons a arest =>
          rw [htact.trans hqa] at h
          simp only [hact, if_true] at h
          cases he : (Sim.update_action { t with actions_queue := arest } a).execute_last_order with
          | none => rw [he] at h; simp at h
          | some s2 =>
            rw [he] at h
            simp only [] at h
            cases he3 : s2.execute_orders with
            | none => rw [he3] at h; simp at h
            | some s3 =>
              rw [he3] at h
              simp only [Option.map] at h
              obtain ⟨e1, e2⟩ := Sim.execute_orders_frame _ _ he3
              obtain ⟨f1, f2⟩ := Sim.execute_last_order_frame _ _ he
              obtain ⟨g1, g2⟩ := Sim.update_action_frame { t with actions_queue := arest } a
              have hs3md : s3.md_queue = rest := by
                rw [e1, f1, g1]
                exact htmd
              have hs3act : s3.actions_queue = arest := by rw [e2, f2, g2]
              cases h
              simp [Sim.delete_last_trade, hs3md, hs3act, hqm, hqa]
              omega
      · -- only market data advances
        simp only [hact, if_false] at h
        cases he3 : t.execute_orders with
        | none => rw [he3] at h; simp at h
        | some s3 =>
          rw [he3] at h
          simp only [Option.map] at h
          obtain ⟨e1, e2⟩ := Sim.execute_orders_frame _ _ he3
          have hs3md : s3.md_queue = rest := e1.trans htmd
          have hs3act : s3.actions_queue = s.actions_queue := e2.trans htact
          cases h
          simp [Sim.delete_last_trade, hs3md, hs3act, hqm]
  · -- only the action advances
    have hact : s.get_actions_queue_event_time ≤ s.get_md_queue_event_time :=
      le_of_not_le hmd
    cases hqa : s.actions_queue with
    | nil =>
      exfalso
      have h1 : s.get_actions_queue_event_time = ⊤ := by
        simp [Sim.get_actions_queue_event_time, hqa]
      exact hq ⟨top_le_iff.mp (h1 ▸ hact), h1⟩
    | cons a arest =>
      simp only [Sim.tickStep, hmd, hact, if_true, if_false, hqa] at h
      cases he : (Sim.update_action { s with actions_queue := arest } a).execute_last_order with
      | none => rw [he] at h; simp at h
      | some s2 =>
        rw [he] at h
        simp only [] at h
        obtain ⟨f1, f2⟩ := Sim.execute_last_order_frame _ _ he
        obtain ⟨g1, g2⟩ := Sim.update_action_frame { s with actions_queue := arest } a
        have hs2md : s2.md_queue = s.md_queue := by rw [f1, g1]
        have hs2act : s2.actions_queue = arest := by rw [f2, g2]
        cases h
        simp [Sim.delete_last_trade, hs2md, hs2act, hqa]

/-- The `while` loop of `tick`: stop when both input queues are exhausted, or
when the notification queue's minimum key is strictly below both input event
times; otherwise run one iteration and repeat. -/
def Sim.tickLoop (s : Sim) : Option Sim :=
  if s.get_md_queue_event_time = ⊤ ∧ s.get_actions_queue_event_time = ⊤ then
    some s
  else if s.get_strategy_updates_queue_event_time <
      min s.get_md_queue_event_time s.get_actions_queue_event_time then
    some s
  else
    match h : s.tickStep with
    | none => none
    | some s' => s'.tickLoop
termination_by s.md_queue.length + s.actions_queue.length
decreasing_by
  exact Sim.tickStep_measure s s' (by assumption) h

/-- Source `tick`: run the loop, then pop and return the minimum-key batch from the
notification queue (`none` models both the popleft failure and a pop on an
empty notification queue). -/
def Sim.tick (s : Sim) : Option ((ℚ × List StratUpdate) × Sim) :=
  match s.tickLoop with
  | none => none
  | some s' =>
    match s'.strategy_updates_queue.pop with
    | none => none
    | some (k, vs, q') => some ((k, vs), { s' with strategy_updates_queue := q' })

/-- Source `place_order`: build the order
(`Order(ts, ts + latency, get_order_id(), side, size, price, order_type)`),
append it to the action queue, and return it together with the new state. -/
def Sim.place_order (s : Sim) (ts : ℚ) (size : ℚ) (side : Side) (price : ℚ)
    (order_type : OrderKind) : Order × Sim :=
  let o : Order :=
    { place_ts := ts
      exchange_ts := ts + s.latency
      order_id := s.order_id
      side := side
      size := size
      price := price
      type := order_type }
  (o, { s with
        order_id := s.order_id + 1
        actions_queue := s.actions_queue ++ [.order o] })

/-- Source `cancel_order`: build the cancel (`CancelOrder(ts + latency,
id_to_delete)`), append it to the action queue, and return it with the new
state. -/
def Sim.cancel_order (s : Sim) (ts : ℚ) (id_to_delete : ℕ) : CancelOrder × Sim :=
  let c : CancelOrder := { exchange_ts := ts + s.latency, id_to_delete := id_to_delete }
  (c, { s with actions_queue := s.actions_queue ++ [.cancelOrder c] })

theorem Sim.apply_md_spec (s : Sim) (m : MdUpdate) :
    (s.apply_md m).md_queue = s.md_queue ∧
    (s.apply_md m).actions_queue = s.actions_queue ∧
    (s.apply_md m).ready_to_execute_orders = s.ready_to_execute_orders ∧
    (s.apply_md m).md = some m ∧
    (s.apply_md m).order_id = s.order_id ∧
    (s.apply_md m).trade_id = s.trade_id ∧
    (s.apply_md m).best_bid = (update_best_positions s.best_bid s.best_ask m).1 ∧
    (s.apply_md m).best_ask = (update_best_positions s.best_bid s.best_ask m).2 ∧
    (s.apply_md m).last_order = s.last_order ∧
    (s.apply_md m).strategy_updates_queue
      = s.strategy_updates_queue.push m.receive_ts (.mdUpd m) := by
  cases h : m.trade with
  | none => simp [Sim.apply_md, h]
  | some t =>
    obtain ⟨ets, rts, side, sz, px⟩ := t
    cases side <;> simp [Sim.apply_md, h, Sim.set_trade_price]

/-- In an iteration where only market data advances, the body is `update_md`
on the popped update, the passive pass, and the last-trade reset. -/
theorem Sim.tickStep_md_only (s : Sim) (m : MdUpdate) (rest : List MdUpdate)
    (hmd : s.get_md_queue_event_time ≤ s.get_actions_queue_event_time)
    (hact : ¬ s.get_actions_queue_event_time ≤ s.get_md_queue_event_time)
    (hqm : s.md_queue = m :: rest) :
    s.tickStep =
      ((Sim.apply_md { s with md_queue := rest } m).execute_orders).map
        Sim.delete_last_trade := by
  simp only [Sim.tickStep, hmd, if_true, hqm, Sim.update_md_eq, hact, if_false]

/-- In an iteration where only an action advances, the body is `update_action`
on the popped action, the aggressive attempt, and the last-trade reset; the
passive pass is not run. -/
theorem Sim.tickStep_action_only (s : Sim) (a : SimAction) (arest : List SimAction)
    (hmd : ¬ s.get_md_queue_event_time ≤ s.get_actions_queue_event_time)
    (hqa : s.actions_queue = a :: arest) :
    s.tickStep =
      ((Sim.update_action { s with actions_queue := arest } a).execute_last_order).map
        Sim.delete_last_trade := by
  have hact : s.get_actions_queue_event_time ≤ s.get_md_queue_event_time :=
    le_of_not_le hmd
  simp only [Sim.tickStep, hmd, if_false, hqa, if_true]
  cases he : (Sim.update_action { s with actions_queue := arest } a).execute_last_order with
  | none => simp [he, hact]
  | some s2 => simp [he, hact, hmd]

/-- On an exact timestamp tie both inputs are applied in the same iteration,
the market-data update first: `update_md`, then `update_action` and the
aggressive attempt, then the passive pass, then the last-trade reset. -/
theorem Sim.tickStep_tie (s : Sim) (m : MdUpdate) (rest : List MdUpdate)
    (a : SimAction) (arest : List SimAction)
    (hmd : s.get_md_queue_event_time ≤ s.get_actions_queue_event_time)
    (hact : s.get_actions_queue_event_time ≤ s.get_md_queue_event_time)
    (hqm : s.md_queue = m :: rest) (hqa : s.actions_queue = a :: arest) :
    s.tickStep =
      (((Sim.update_action
          { Sim.apply_md { s with md_queue := rest } m with actions_queue := arest }
          a).execute_last_order).bind Sim.execute_orders).map
        Sim.delete_last_trade := by
  simp only [Sim.tickStep, hmd, if_true, hqm, Sim.update_md_eq, hact]
  rw [show (Sim.apply_md { s with md_queue := rest } m).actions_queue = a :: arest from
    ((Sim.apply_md_spec { s with md_queue := rest } m).2.1).trans hqa]
  cases he : (Sim.update_action
      { Sim.apply_md { s with md_queue := rest } m with actions_queue := arest }
      a).execute_last_order with
  | none => simp [he]
  | some s2 => simp [he]

theorem Sim.tickLoop_stop_empty (s : Sim)
    (h : s.get_md_queue_event_time = ⊤ ∧ s.get_actions_queue_event_time = ⊤) :
    s.tickLoop = some s := by
  rw [Sim.tickLoop]
  simp [h]

theorem Sim.tickLoop_stop_notif (s : Sim)
    (h1 : ¬(s.get_md_queue_event_time = ⊤ ∧ s.get_actions_queue_event_time = ⊤))
    (h2 : s.get_strategy_updates_queue_event_time <
      min s.get_md_queue_event_time s.get_actions_queue_event_time) :
    s.tickLoop = some s := by
  rw [Sim.tickLoop]
  simp [h1, h2]

theorem Sim.tickLoop_continue (s : Sim)
    (h1 : ¬(s.get_md_queue_event_time = ⊤ ∧ s.get_actions_queue_event_time = ⊤))
    (h2 : ¬ s.get_strategy_updates_queue_event_time <
      min s.get_md_queue_event_time s.get_actions_queue_event_time) :
    s.tickLoop = s.tickStep.bind Sim.tickLoop := by
  rw [Sim.tickLoop]
  simp only [h1, h2, if_false]
  cases ht : s.tickStep with
  | none => simp
  | some s2 => simp

/-- Degenerate iteration: market data selected but its queue is empty (can
only arise when the loop guard would already have stopped). -/
theorem Sim.tickStep_md_nil (s : Sim)
    (hmd : s.get_md_queue_event_time ≤ s.get_actions_queue_event_time)
    (hqm : s.md_queue = []) :
    s.tickStep = none := by
  simp [Sim.tickStep, hmd, hqm]

/-- Aggressive resolution always leaves the pending-order slot empty. -/
theorem Sim.execute_last_order_clears (x s' : Sim)
    (h : x.execute_last_order = some s') : s'.last_order = none := by
  unfold Sim.execute_last_order at h
  repeat' split at h
  all_goals (cases h <;> simp_all)

theorem Sim.execute_last_order_fields (x s' : Sim)
    (h : x.execute_last_order = some s') :
    s'.md_queue = x.md_queue ∧ s'.actions_queue = x.actions_queue ∧
    s'.md = x.md ∧ s'.best_bid = x.best_bid ∧ s'.best_ask = x.best_ask ∧
    s'.trade_price_bid = x.trade_price_bid ∧ s'.trade_price_ask = x.trade_price_ask ∧
    s'.order_id = x.order_id ∧ s'.latency = x.latency ∧ s'.md_latency = x.md_latency := by
  unfold Sim.execute_last_order at h
  repeat' split at h
  all_goals (cases h <;> exact ⟨rfl, rfl, rfl, rfl, rfl, rfl, rfl, rfl, rfl, rfl⟩)

theorem Sim.update_action_fields (s : Sim) (a : SimAction) :
    (s.update_action a).md_queue = s.md_queue ∧
    (s.update_action a).actions_queue = s.actions_queue ∧
    (s.update_action a).strategy_updates_queue = s.strategy_updates_queue ∧
    (s.update_action a).md = s.md ∧
    (s.update_action a).best_bid = s.best_bid ∧
    (s.update_action a).best_ask = s.best_ask ∧
    (s.update_action a).trade_price_bid = s.trade_price_bid ∧
    (s.update_action a).trade_price_ask = s.trade_price_ask ∧
    (s.update_action a).order_id = s.order_id ∧
    (s.update_action a).trade_id = s.trade_id ∧
    (s.update_action a).latency = s.latency ∧
    (s.update_action a).md_latency = s.md_latency := by
  cases a with
  | order o => simp [Sim.update_action]
  | cancelOrder c =>
    by_cases h : dictContains s.ready_to_execute_orders c.id_to_delete = true <;>
      simp [Sim.update_action, h]

/-- The pending-order slot after `update_action`: a place action overwrites
it, a cancel leaves it. -/
theorem Sim.update_action_last (s : Sim) (a : SimAction) :
    (s.update_action a).last_order =
      (match a with
       | .order o => some o
       | .cancelOrder _ => s.last_order) := by
  cases a with
  | order o => simp [Sim.update_action]
  | cancelOrder c =>
    by_cases h : dictContains s.ready_to_execute_orders c.id_to_delete = true <;>
      simp [Sim.update_action, h]

theorem Sim.execute_orders_go_fields (s : Sim) (items : List (ℕ × Order))
    (acc : List ℕ) (s' : Sim) (ids : List ℕ)
    (h : s.execute_orders_go items acc = some (s', ids)) :
    s'.md_queue = s.md_queue ∧ s'.actions_queue = s.actions_queue ∧
    s'.ready_to_execute_orders = s.ready_to_execute_orders ∧
    s'.last_order = s.last_order ∧ s'.md = s.md ∧
    s'.best_bid = s.best_bid ∧ s'.best_ask = s.best_ask ∧
    s'.trade_price_bid = s.trade_price_bid ∧ s'.trade_price_ask = s.trade_price_ask ∧
    s'.order_id = s.order_id ∧ s'.latency = s.latency ∧ s'.md_latency = s.md_latency := by
  induction items generalizing s acc with
  | nil =>
    simp [Sim.execute_orders_go] at h
    simp [h.1]
  | cons hd tl ih =>
    obtain ⟨oid, o⟩ := hd
    rw [Sim.execute_orders_go] at h
    split at h
    · exact ih _ _ h
    · cases hmd : s.md with
      | none => rw [hmd] at h; simp at h
      | some m =>
        rw [hmd] at h
        simpa using ih _ _ h

theorem Sim.execute_orders_fields (s s' : Sim)
    (h : s.execute_orders = some s') :
    s'.md_queue = s.md_queue ∧ s'.actions_queue = s.actions_queue ∧
    s'.last_order = s.last_order ∧ s'.md = s.md ∧
    s'.best_bid = s.best_bid ∧ s'.best_ask = s.best_ask ∧
    s'.trade_price_bid = s.trade_price_bid ∧ s'.trade_price_ask = s.trade_price_ask ∧
    s'.order_id = s.order_id ∧ s'.latency = s.latency ∧ s'.md_latency = s.md_latency := by
  unfold Sim.execute_orders at h
  cases hg : s.execute_orders_go s.ready_to_execute_orders [] with
  | none => simp [hg] at h
  | some p =>
    simp only [hg, Option.map] at h
    obtain ⟨e1, e2, _, e4, e5, e6, e7, e8, e9, e10, e11, e12⟩ :=
      Sim.execute_orders_go_fields s _ _ p.1 p.2 (by simpa using hg)
    cases h
    exact ⟨e1, e2, e4, e5, e6, e7, e8, e9, e10, e11, e12⟩

/-- One loop iteration started with an empty pending-order slot leaves the
slot empty: the slot is only filled transiently between `update_action` and
the immediately following `execute_last_order`. -/
theorem Sim.tickStep_last (s s' : Sim) (hlo : s.last_order = none)
    (h : s.tickStep = some s') : s'.last_order = none := by
  by_cases hmd : s.get_md_queue_event_time ≤ s.get_actions_queue_event_time
  · cases hqm : s.md_queue with
    | nil => rw [Sim.tickStep_md_nil s hmd hqm] at h; simp at h
    | cons m rest =>
      by_cases hact : s.get_actions_queue_event_time ≤ s.get_md_queue_event_time
      · cases hqa : s.actions_queue with
        | nil =>
          exfalso
          rw [Sim.get_actions_queue_event_time, Sim.get_md_queue_event_time, hqa, hqm] at hact
          exact (WithTop.coe_ne_top (top_le_iff.mp hact)).elim
        | cons a arest =>
          rw [Sim.tickStep_tie s m rest a arest hmd hact hqm hqa] at h
          cases he : (Sim.update_action
              { Sim.apply_md { s with md_queue := rest } m with actions_queue := arest }
              a).execute_last_order with
          | none => rw [he] at h; simp at h
          | some s2 =>
            rw [he] at h
            simp only [Option.bind] at h
            cases he3 : s2.execute_orders with
            | none => rw [he3] at h; simp at h
            | some s3 =>
              rw [he3] at h
              simp only [Option.bind, Option.map] at h
              cases h
              have h2 : s2.last_order = none := Sim.execute_last_order_clears _ _ he
              have h3 := (Sim.execute_orders_fields _ _ he3).2.2.1
              simpa [Sim.delete_last_trade, h3] using h2
      · rw [Sim.tickStep_md_only s m rest hmd hact hqm] at h
        cases he3 : (Sim.apply_md { s with md_queue := rest } m).execute_orders with
        | none => rw [he3] at h; simp at h
        | some s3 =>
          rw [he3] at h
          simp only [Option.map] at h
          cases h
          have h3 := (Sim.execute_orders_fields _ _ he3).2.2.1
          have h4 := (Sim.apply_md_spec { s with md_queue := rest } m).2.2.2.2.2.2.2.2.1
          simp only [Sim.delete_last_trade, h3, h4]
          exact hlo
  · cases hqa : s.actions_queue with
    | nil =>
      exfalso
      apply hmd
      rw [Sim.get_actions_queue_event_time, hqa]
      exact le_top
    | cons a arest =>
      rw [Sim.tickStep_action_only s a arest hmd hqa] at h
      cases he : (Sim.update_action { s with actions_queue := arest } a).execute_last_order with
      | none => rw [he] at h; simp at h
      | some s2 =>
        rw [he] at h
        simp only [Option.map] at h
        cases h
        have h2 : s2.last_order = none := Sim.execute_last_order_clears _ _ he
        simpa [Sim.delete_last_trade] using h2

theorem Sim.tickLoop_last_aux (n : ℕ) :
    ∀ s s' : Sim, s.md_queue.length + s.actions_queue.length ≤ n →
      s.last_order = none → s.tickLoop = some s' → s'.last_order = none := by
  induction n with
  | zero =>
    intro s s' hn hlo h
    by_cases h1 : s.get_md_queue_event_time = ⊤ ∧ s.get_actions_queue_event_time = ⊤
    · rw [Sim.tickLoop_stop_empty s h1] at h
      cases h
      exact hlo
    · by_cases h2 : s.get_strategy_updates_queue_event_time <
          min s.get_md_queue_event_time s.get_actions_queue_event_time
      · rw [Sim.tickLoop_stop_notif s h1 h2] at h
        cases h
        exact hlo
      · rw [Sim.tickLoop_continue s h1 h2] at h
        cases ht : s.tickStep with
        | none => rw [ht] at h; simp at h
        | some s1 =>
          have := Sim.tickStep_measure s s1 h1 ht
          omega
  | succ n ih =>
    intro s s' hn hlo h
    by_cases h1 : s.get_md_queue_event_time = ⊤ ∧ s.get_actions_queue_event_time = ⊤
    · rw [Sim.tickLoop_stop_empty s h1] at h
      cases h
      exact hlo
    · by_cases h2 : s.get_strategy_updates_queue_event_time <
          min s.get_md_queue_event_time s.get_actions_queue_event_time
      · rw [Sim.tickLoop_stop_notif s h1 h2] at h
        cases h
        exact hlo
      · rw [Sim.tickLoop_continue s h1 h2] at h
        cases ht : s.tickStep with
        | none => rw [ht] at h; simp at h
        | some s1 =>
          rw [ht] at h
          simp only [Option.bind] at h
          have hm := Sim.tickStep_measure s s1 h1 ht
          exact ih s1 s' (by omega) (Sim.tickStep_last s s1 hlo ht) h

theorem Sim.tickLoop_last (s s' : Sim) (hlo : s.last_order = none)
    (h : s.tickLoop = some s') : s'.last_order = none :=
  Sim.tickLoop_last_aux (s.md_queue.length + s.actions_queue.length) s s'
    le_rfl hlo h

/-- States reachable through the engine's public entry points
(construction, `place_order`, `cancel_order`, `tick`). -/
inductive Reachable : Sim → Prop
  | init : ∀ (market_data : List MdUpdate) (el ml : ℚ),
      Reachable (Sim.init market_data el ml)
  | place : ∀ s, Reachable s →
      ∀ (ts size : ℚ) (side : Side) (price : ℚ) (k : OrderKind),
      Reachable (s.place_order ts size side price k).2
  | cancel : ∀ s, Reachable s → ∀ (ts : ℚ) (oid : ℕ),
      Reachable (s.cancel_order ts oid).2
  | tick : ∀ s, Reachable s → ∀ r s', s.tick = some (r, s') → Reachable s'

/-- Between public operations the pending-order slot is always empty. -/
theorem Reachable.last_order_none {s : Sim} (h : Reachable s) :
    s.last_order = none := by
  induction h with
  | init market_data el ml => rfl
  | place s hr ts size side price k ih => simpa [Sim.place_order] using ih
  | cancel s hr ts oid ih => simpa [Sim.cancel_order] using ih
  | tick s hr r s' ht ih =>
    unfold Sim.tick at ht
    cases hl : s.tickLoop with
    | none => rw [hl] at ht; simp at ht
    | some s1 =>
      rw [hl] at ht
      have h1 : s1.last_order = none := Sim.tickLoop_last s s1 ih hl
      cases hp : s1.strategy_updates_queue.pop with
      | none => simp [hp] at ht
      | some kvq =>
        obtain ⟨k, vs, q'⟩ := kvq
        simp [hp] at ht
        rw [← ht.2]
        simpa using h1

/-- A state whose pending-order slot is empty is untouched by the aggressive
resolution attempt. -/
theorem Sim.execute_last_order_of_none (s : Sim) (h : s.last_order = none) :
    s.execute_last_order = some s := by
  simp [Sim.execute_last_order, h]

/-- The loop of `md_to_dataframe` (`get_info.py`): running best bid/ask after
each update, replaying the Best-Price Tracker from `(-∞, +∞)`. -/
def md_to_dataframe_go (best_bid best_ask : XQ) : List MdUpdate → List (XQ × XQ)
  | [] => []
  | m :: rest =>
    let p := update_best_positions best_bid best_ask m
    p :: md_to_dataframe_go p.1 p.2 rest

/-- The `bid_price`/`ask_price` columns of `md_to_dataframe` (`get_info.py`):
the i-th entry is the best bid/ask after the first i+1 updates. -/
def md_to_dataframe (md_list : List MdUpdate) : List (XQ × XQ) :=
  md_to_dataframe_go ⊥ ⊤ md_list

/-- C1: one iteration of the tick loop selects work as specified: it stops
when both input queues are empty; otherwise it stops without consuming input
when the notification queue's minimum key is strictly below the minimum of
the two input event times; otherwise it runs one iteration and repeats, where
the market-data update is popped and applied exactly when its timestamp is
`≤` the action queue's next timestamp, the action is popped and applied
exactly when its timestamp is `≤` the market-data queue's next timestamp, and
on an exact tie both are applied in the same iteration, the market-data
update first. -/
theorem tick_loop_work_selection (s : Sim) :
    (s.get_md_queue_event_time = ⊤ ∧ s.get_actions_queue_event_time = ⊤ →
      s.tickLoop = some s) ∧
    (¬(s.get_md_queue_event_time = ⊤ ∧ s.get_actions_queue_event_time = ⊤) →
      s.get_strategy_updates_queue_event_time <
        min s.get_md_queue_event_time s.get_actions_queue_event_time →
      s.tickLoop = some s) ∧
    (¬(s.get_md_queue_event_time = ⊤ ∧ s.get_actions_queue_event_time = ⊤) →
      ¬ s.get_strategy_updates_queue_event_time <
        min s.get_md_queue_event_time s.get_actions_queue_event_time →
      s.tickLoop = s.tickStep.bind Sim.tickLoop) ∧
    (∀ m rest, s.md_queue = m :: rest →
      s.get_md_queue_event_time ≤ s.get_actions_queue_event_time →
      ¬ s.get_actions_queue_event_time ≤ s.get_md_queue_event_time →
      s.tickStep =
        ((Sim.apply_md { s with md_queue := rest } m).execute_orders).map
          Sim.delete_last_trade) ∧
    (∀ a arest, s.actions_queue = a :: arest →
      ¬ s.get_md_queue_event_time ≤ s.get_actions_queue_event_time →
      s.tickStep =
        ((Sim.update_action { s with actions_queue := arest } a).execute_last_order).map
          Sim.delete_last_trade) ∧
    (∀ m rest a arest, s.md_queue = m :: rest → s.actions_queue = a :: arest →
      s.get_md_queue_event_time ≤ s.get_actions_queue_event_time →
      s.get_actions_queue_event_time ≤ s.get_md_queue_event_time →
      s.tickStep =
        (((Sim.update_action
            { Sim.apply_md { s with md_queue := rest } m with actions_queue := arest }
            a).execute_last_order).bind Sim.execute_orders).map
          Sim.delete_last_trade) := by
  refine ⟨Sim.tickLoop_stop_empty s, Sim.tickLoop_stop_notif s,
    Sim.tickLoop_continue s, ?_, ?_, ?_⟩
  · intro m rest hqm hmd hact
    exact Sim.tickStep_md_only s m rest hmd hact hqm
  · intro a arest hqa hmd
    exact Sim.tickStep_action_only s a arest hmd hqa
  · intro m rest a arest hqm hqa hmd hact
    exact Sim.tickStep_tie s m rest a arest hmd hact hqm hqa

/-- C1 witness: on the engine with no input at all, the loop stops at once. -/
theorem tick_loop_work_selection_witness :
    (Sim.init [] 0 0).tickLoop = some (Sim.init [] 0 0) :=
  (tick_loop_work_selection (Sim.init [] 0 0)).1 ⟨rfl, rfl⟩

/-- C2: in every tick-loop iteration that popped a market-data update, the
engine runs the aggressive resolution attempt for the pending order and then
the passive pass over the whole resting map with the just-updated state
(started with an empty pending slot — the invariant at every iteration
boundary — the md-only iteration equals `update_md`, then
`execute_last_order`, then `execute_orders`; on a tie the action is applied
between them); in an iteration that popped only an action, the passive pass
`execute_orders` is not run: the body is `update_action` and
`execute_last_order` alone. -/
theorem md_tick_matching_passes (s : Sim) (hlo : s.last_order = none) :
    (∀ m rest, s.md_queue = m :: rest →
      s.get_md_queue_event_time ≤ s.get_actions_queue_event_time →
      ¬ s.get_actions_queue_event_time ≤ s.get_md_queue_event_time →
      s.tickStep =
        (((Sim.apply_md { s with md_queue := rest } m).execute_last_order).bind
          Sim.execute_orders).map Sim.delete_last_trade) ∧
    (∀ m rest a arest, s.md_queue = m :: rest → s.actions_queue = a :: arest →
      s.get_md_queue_event_time ≤ s.get_actions_queue_event_time →
      s.get_actions_queue_event_time ≤ s.get_md_queue_event_time →
      s.tickStep =
        (((Sim.update_action
            { Sim.apply_md { s with md_queue := rest } m with actions_queue := arest }
            a).execute_last_order).bind Sim.execute_orders).map
          Sim.delete_last_trade) ∧
    (∀ a arest, s.actions_queue = a :: arest →
      ¬ s.get_md_queue_event_time ≤ s.get_actions_queue_event_time →
      s.tickStep =
        ((Sim.update_action { s with actions_queue := arest } a).execute_last_order).map
          Sim.delete_last_trade) := by
  refine ⟨?_, ?_, ?_⟩
  · intro m rest hqm hmd hact
    have ht := Sim.tickStep_md_only s m rest hmd hact hqm
    have htl : (Sim.apply_md { s with md_queue := rest } m).last_order = none := by
      rw [(Sim.apply_md_spec { s with md_queue := rest } m).2.2.2.2.2.2.2.2.1]
      simpa using hlo
    rw [ht, Sim.execute_last_order_of_none _ htl]
    simp
  · intro m rest a arest hqm hqa hmd hact
    exact Sim.tickStep_tie s m rest a arest hmd hact hqm hqa
  · intro a arest hqa hmd
    exact Sim.tickStep_action_only s a arest hmd hqa

/-- C2 witness: a concrete engine state with an empty pending slot and one
queued action. -/
theorem md_tick_matching_passes_witness :
    ({ Sim.init [] 0 0 with actions_queue := [.cancelOrder ⟨0, 0⟩] } : Sim).tickStep =
      ((Sim.update_action
          { ({ Sim.init [] 0 0 with actions_queue := [.cancelOrder ⟨0, 0⟩] } : Sim) with
            actions_queue := [] }
          (.cancelOrder ⟨0, 0⟩)).execute_last_order).map Sim.delete_last_trade :=
  (md_tick_matching_passes
    { Sim.init [] 0 0 with actions_queue := [.cancelOrder ⟨0, 0⟩] } rfl).2.2
    (.cancelOrder ⟨0, 0⟩) [] rfl (by decide)

/-- C3: aggressive resolution of a pending LIMIT order — a buy fills exactly
when its limit price strictly exceeds the current best ask, at the best ask
(not its own limit); a sell fills exactly when its limit price is strictly
below the current best bid, at the best bid; the trade is a TAKER at venue
BOOK, queued for delivery at the current update's exchange timestamp plus the
market-data latency; otherwise the order is inserted into the resting map
keyed by its id. -/
theorem aggressive_limit_resolution (s : Sim) (lo : Order) (m : MdUpdate)
    (hlo : s.last_order = some lo) (hty : lo.type = .LIMIT) (hmd : s.md = some m) :
    (lo.side = .BID → fq lo.price > s.best_ask →
      s.execute_last_order = some
        { s with
          trade_id := s.trade_id + 1
          strategy_updates_queue :=
            s.strategy_updates_queue.push (m.exchange_ts + s.md_latency)
              (.ownTrade
                { place_ts := lo.place_ts
                  exchange_ts := m.exchange_ts
                  receive_ts := m.exchange_ts + s.md_latency
                  trade_id := s.trade_id
                  order_id := lo.order_id
                  side := lo.side
                  size := lo.size
                  price := s.best_ask
                  trade_type := .TAKER
                  execute := .BOOK })
          last_order := none }) ∧
    (lo.side = .ASK → fq lo.price < s.best_bid →
      s.execute_last_order = some
        { s with
          trade_id := s.trade_id + 1
          strategy_updates_queue :=
            s.strategy_updates_queue.push (m.exchange_ts + s.md_latency)
              (.ownTrade
                { place_ts := lo.place_ts
                  exchange_ts := m.exchange_ts
                  receive_ts := m.exchange_ts + s.md_latency
                  trade_id := s.trade_id
                  order_id := lo.order_id
                  side := lo.side
                  size := lo.size
                  price := s.best_bid
                  trade_type := .TAKER
                  execute := .BOOK })
          last_order := none }) ∧
    (lo.side = .BID → ¬ fq lo.price > s.best_ask →
      s.execute_last_order = some
        { s with
          ready_to_execute_orders := dictInsert s.ready_to_execute_orders lo.order_id lo
          last_order := none }) ∧
    (lo.side = .ASK → ¬ fq lo.price < s.best_bid →
      s.execute_last_order = some
        { s with
          ready_to_execute_orders := dictInsert s.ready_to_execute_orders lo.order_id lo
          last_order := none }) := by
  refine ⟨?_, ?_, ?_, ?_⟩
  · intro hside hgt
    simp [Sim.execute_last_order, hlo, hside, hgt, hty, hmd]
  · intro hside hlt
    simp [Sim.execute_last_order, hlo, hside, hlt, hty, hmd]
  · intro hside hng
    simp [Sim.execute_last_order, hlo, hside, hng]
  · intro hside hng
    simp [Sim.execute_last_order, hlo, hside, hng]

/-- C3 witness: a marketable buy at limit 10 against best ask 5 fills at 5;
a buy at limit 3 rests. -/
theorem aggressive_limit_resolution_witness :
    ({ Sim.init [] 0 1 with
       md := some ⟨2, 3, none, none⟩
       best_ask := fq 5
       last_order := some ⟨0, 0, 0, .BID, 1, 10, .LIMIT⟩ } : Sim).execute_last_order =
      some
        { ({ Sim.init [] 0 1 with
             md := some ⟨2, 3, none, none⟩
             best_ask := fq 5
             last_order := some ⟨0, 0, 0, .BID, 1, 10, .LIMIT⟩ } : Sim) with
          trade_id := 0 + 1
          strategy_updates_queue :=
            PriorQueue.empty.push (2 + 1)
              (.ownTrade
                { place_ts := 0
                  exchange_ts := 2
                  receive_ts := 2 + 1
                  trade_id := 0
                  order_id := 0
                  side := .BID
                  size := 1
                  price := fq 5
                  trade_type := .TAKER
                  execute := .BOOK })
          last_order := none } :=
  (aggressive_limit_resolution _ ⟨0, 0, 0, .BID, 1, 10, .LIMIT⟩ ⟨2, 3, none, none⟩
    rfl rfl rfl).1 rfl (by decide)

/-- C5: a POST_ONLY order that is marketable at aggressive resolution is
silently discarded: no trade is generated, nothing is pushed to the
notification queue, nothing enters the resting map, and only the pending
slot is cleared. -/
theorem post_only_marketable_discarded (s : Sim) (lo : Order)
    (hlo : s.last_order = some lo) (hty : lo.type = .POST_ONLY) :
    (lo.side = .BID → fq lo.price > s.best_ask →
      s.execute_last_order = some { s with last_order := none }) ∧
    (lo.side = .ASK → fq lo.price < s.best_bid →
      s.execute_last_order = some { s with last_order := none }) := by
  constructor
  · intro hside hgt
    simp [Sim.execute_last_order, hlo, hside, hgt, hty]
  · intro hside hlt
    simp [Sim.execute_last_order, hlo, hside, hlt, hty]

/-- C5 witness: a marketable post-only buy is dropped without a trade. -/
theorem post_only_marketable_discarded_witness :
    ({ Sim.init [] 0 1 with
       best_ask := fq 5
       last_order := some ⟨0, 0, 0, .BID, 1, 10, .POST_ONLY⟩ } : Sim).execute_last_order =
      some
        { ({ Sim.init [] 0 1 with
             best_ask := fq 5
             last_order := some ⟨0, 0, 0, .BID, 1, 10, .POST_ONLY⟩ } : Sim) with
          last_order := none } :=
  (post_only_marketable_discarded _ ⟨0, 0, 0, .BID, 1, 10, .POST_ONLY⟩ rfl rfl).1
    rfl (by decide)

/-- C7: the pending-aggressive-order slot is single-valued — a place action
overwrites it, so after two places only the latest is present, the aggressive
attempt sees only the latest order, and the overwritten order produces no
notification. -/
theorem pending_slot_single_valued (s : Sim) (o o1 o2 : Order) :
    s.update_action (.order o) = { s with last_order := some o } ∧
    (s.update_action (.order o1)).update_action (.order o2) =
      s.update_action (.order o2) ∧
    ((s.update_action (.order o1)).update_action (.order o2)).execute_last_order =
      (s.update_action (.order o2)).execute_last_order ∧
    ((s.update_action (.order o1)).update_action (.order o2)).strategy_updates_queue =
      s.strategy_updates_queue := by
  refine ⟨rfl, ?_, ?_, rfl⟩
  · simp [Sim.update_action]
  · simp [Sim.update_action]

/-- C8: processing a cancel action whose target id is absent from the resting
map changes nothing but the consumption of the action itself (resting map,
market-data queue, notification queue, counters, best bid/ask all unchanged),
and no error is raised.  The last-trade prices and the pending slot are at
their reset values at every iteration boundary. -/
theorem cancel_unknown_id_noop (s : Sim) (c : CancelOrder) (arest : List SimAction)
    (hlo : s.last_order = none)
    (htpb : s.trade_price_bid = ⊥) (htpa : s.trade_price_ask = ⊤)
    (hqa : s.actions_queue = .cancelOrder c :: arest)
    (habs : dictContains s.ready_to_execute_orders c.id_to_delete = false)
    (hmd : ¬ s.get_md_queue_event_time ≤ s.get_actions_queue_event_time) :
    s.tickStep = some { s with actions_queue := arest } := by
  rw [Sim.tickStep_action_only s (.cancelOrder c) arest hmd hqa]
  have h1 : Sim.update_action { s with actions_queue := arest } (.cancelOrder c) =
      { s with actions_queue := arest } := by
    simp only [Sim.update_action]
    rw [if_neg]
    simp [habs]
  rw [h1, Sim.execute_last_order_of_none _ (by simpa using hlo)]
  simp only [Option.map]
  rw [show ({ s with actions_queue := arest } : Sim).delete_last_trade =
    { s with actions_queue := arest } from by
      simp only [Sim.delete_last_trade]
      rw [← htpb, ← htpa]]

/-- C8 witness: cancel of id 7 on an engine with an empty resting map. -/
theorem cancel_unknown_id_noop_witness :
    ({ Sim.init [] 0 0 with actions_queue := [.cancelOrder ⟨0, 7⟩] } : Sim).tickStep =
      some { ({ Sim.init [] 0 0 with actions_queue := [.cancelOrder ⟨0, 7⟩] } : Sim) with
             actions_queue := [] } :=
  cancel_unknown_id_noop _ ⟨0, 7⟩ [] rfl rfl rfl rfl rfl (by decide)

/-- After a successful iteration either a market-data update became current,
or the current update and the touch are untouched. -/
theorem Sim.tickStep_md_touch (s s' : Sim) (h : s.tickStep = some s') :
    (∃ m, s'.md = some m) ∨
    (s'.md = s.md ∧ s'.best_bid = s.best_bid ∧ s'.best_ask = s.best_ask) := by
  by_cases hmd : s.get_md_queue_event_time ≤ s.get_actions_queue_event_time
  · cases hqm : s.md_queue with
    | nil => rw [Sim.tickStep_md_nil s hmd hqm] at h; simp at h
    | cons m rest =>
      by_cases hact : s.get_actions_queue_event_time ≤ s.get_md_queue_event_time
      · cases hqa : s.actions_queue with
        | nil =>
          exfalso
          rw [Sim.get_actions_queue_event_time, Sim.get_md_queue_event_time, hqa, hqm] at hact
          exact (WithTop.coe_ne_top (top_le_iff.mp hact)).elim
        | cons a arest =>
          rw [Sim.tickStep_tie s m rest a arest hmd hact hqm hqa] at h
          cases he : (Sim.update_action
              { Sim.apply_md { s with md_queue := rest } m with actions_queue := arest }
              a).execute_last_order with
          | none => rw [he] at h; simp at h
          | some s2 =>
            rw [he] at h
            simp only [Option.bind] at h
            cases he3 : s2.execute_orders with
            | none => rw [he3] at h; simp at h
            | some s3 =>
              rw [he3] at h
              simp only [Option.map] at h
              cases h
              left
              refine ⟨m, ?_⟩
              have h3 := (Sim.execute_orders_fields _ _ he3).2.2.2.1
              have h2 := (Sim.execute_last_order_fields _ _ he).2.2.1
              have h1 : (Sim.update_action
                  { Sim.apply_md { s with md_queue := rest } m with actions_queue := arest }
                  a).md = some m := by
                rw [(Sim.update_action_fields _ a).2.2.2.1]
                exact (Sim.apply_md_spec { s with md_queue := rest } m).2.2.2.1
              simp only [Sim.delete_last_trade]
              rw [h3, h2, h1]
      · rw [Sim.tickStep_md_only s m rest hmd hact hqm] at h
        cases he3 : (Sim.apply_md { s with md_queue := rest } m).execute_orders with
        | none => rw [he3] at h; simp at h
        | some s3 =>
          rw [he3] at h
          simp only [Option.map] at h
          cases h
          left
          refine ⟨m, ?_⟩
          have h3 := (Sim.execute_orders_fields _ _ he3).2.2.2.1
          simp only [Sim.delete_last_trade]
          rw [h3]
          exact (Sim.apply_md_spec { s with md_queue := rest } m).2.2.2.1
  · cases hqa : s.actions_queue with
    | nil =>
      exfalso
      apply hmd
      rw [Sim.get_actions_queue_event_time, hqa]
      exact le_top
    | cons a arest =>
      rw [Sim.tickStep_action_only s a arest hmd hqa] at h
      cases he : (Sim.update_action { s with actions_queue := arest } a).execute_last_order with
      | none => rw [he] at h; simp at h
      | some s2 =>
        rw [he] at h
        simp only [Option.map] at h
        cases h
        right
        obtain ⟨-, -, e3, e4, e5, -⟩ := Sim.execute_last_order_fields _ _ he
        obtain ⟨-, -, -, f4, f5, f6, -⟩ := Sim.update_action_fields { s with actions_queue := arest } a
        refine ⟨?_, ?_, ?_⟩
        · simp only [Sim.delete_last_trade]
          rw [e3, f4]
        · simp only [Sim.delete_last_trade]
          rw [e4, f5]
        · simp only [Sim.delete_last_trade]
          rw [e5, f6]

/-- A generic invariant rule for the tick loop. -/
theorem Sim.tickLoop_invariant (P : Sim → Prop)
    (hstep : ∀ s s' : Sim, P s → s.tickStep = some s' → P s') :
    ∀ n, ∀ s s' : Sim, s.md_queue.length + s.actions_queue.length ≤ n →
      P s → s.tickLoop = some s' → P s' := by
  intro n
  induction n with
  | zero =>
    intro s s' hn hP h
    by_cases h1 : s.get_md_queue_event_time = ⊤ ∧ s.get_actions_queue_event_time = ⊤
    · rw [Sim.tickLoop_stop_empty s h1] at h
      cases h
      exact hP
    · by_cases h2 : s.get_strategy_updates_queue_event_time <
          min s.get_md_queue_event_time s.get_actions_queue_event_time
      · rw [Sim.tickLoop_stop_notif s h1 h2] at h
        cases h
        exact hP
      · rw [Sim.tickLoop_continue s h1 h2] at h
        cases ht : s.tickStep with
        | none => rw [ht] at h; simp at h
        | some s1 =>
          have := Sim.tickStep_measure s s1 h1 ht
          omega
  | succ n ih =>
    intro s s' hn hP h
    by_cases h1 : s.get_md_queue_event_time = ⊤ ∧ s.get_actions_queue_event_time = ⊤
    · rw [Sim.tickLoop_stop_empty s h1] at h
      cases h
      exact hP
    · by_cases h2 : s.get_strategy_updates_queue_event_time <
          min s.get_md_queue_event_time s.get_actions_queue_event_time
      · rw [Sim.tickLoop_stop_notif s h1 h2] at h
        cases h
        exact hP
      · rw [Sim.tickLoop_continue s h1 h2] at h
        cases ht : s.tickStep with
        | none => rw [ht] at h; simp at h
        | some s1 =>
          rw [ht] at h
          simp only [Option.bind] at h
          have hm := Sim.tickStep_measure s s1 h1 ht
          exact ih s1 s' (by omega) (hstep s s1 hP ht) h

/-- Before any market-data update has been applied the touch is still at its
initial `(-∞, +∞)`. -/
theorem Reachable.pre_md_touch {s : Sim} (h : Reachable s) :
    s.md = none → s.best_bid = ⊥ ∧ s.best_ask = ⊤ := by
  induction h with
  | init market_data el ml => exact fun _ => ⟨rfl, rfl⟩
  | place s hr ts size side price k ih => simpa [Sim.place_order] using ih
  | cancel s hr ts oid ih => simpa [Sim.cancel_order] using ih
  | tick s hr r s' ht ih =>
    unfold Sim.tick at ht
    cases hl : s.tickLoop with
    | none => rw [hl] at ht; simp at ht
    | some s1 =>
      rw [hl] at ht
      have h1 : s1.md = none → s1.best_bid = ⊥ ∧ s1.best_ask = ⊤ :=
        Sim.tickLoop_invariant
          (fun x => x.md = none → x.best_bid = ⊥ ∧ x.best_ask = ⊤)
          (fun x x' hP hx hmd' => by
            rcases Sim.tickStep_md_touch x x' hx with ⟨m, hm⟩ | ⟨e1, e2, e3⟩
            · rw [hm] at hmd'; cases hmd'
            · rw [e2, e3]
              exact hP (e1 ▸ hmd'))
          (s.md_queue.length + s.actions_queue.length) s s1 le_rfl ih hl
      cases hp : s1.strategy_updates_queue.pop with
      | none => simp [hp] at ht
      | some kvq =>
        obtain ⟨k, vs, q'⟩ := kvq
        simp [hp] at ht
        rw [← ht.2]
        simpa using h1

/-- C10: while no market-data update has been applied (`self.md is None`),
the best bid is `-∞` and the best ask `+∞`, so a place action resolved in
that state is never marketable under the strict comparisons: regardless of
its kind it enters the resting map, no trade is generated, nothing is pushed
to the notification queue, and the `self.md` dereference in the fill branch
of `execute_last_order` is not reached (the call returns normally). -/
theorem pre_md_orders_always_rest (s : Sim) (hr : Reachable s) (hmd : s.md = none) :
    (s.best_bid = ⊥ ∧ s.best_ask = ⊤) ∧
    ∀ o : Order,
      ({ s with last_order := some o } : Sim).execute_last_order =
        some { s with
               ready_to_execute_orders :=
                 dictInsert s.ready_to_execute_orders o.order_id o
               last_order := none } := by
  obtain ⟨hbb, hba⟩ := hr.pre_md_touch hmd
  refine ⟨⟨hbb, hba⟩, ?_⟩
  intro o
  cases hside : o.side <;>
    simp [Sim.execute_last_order, hside, hbb, hba, not_top_lt, not_lt_bot]

/-- C10 witness: the freshly constructed engine, with a concrete pending
order of each comparison-relevant shape. -/
theorem pre_md_orders_always_rest_witness :
    ((Sim.init [] 0 0).best_bid = ⊥ ∧ (Sim.init [] 0 0).best_ask = ⊤) ∧
    ({ Sim.init [] 0 0 with
       last_order := some ⟨0, 0, 0, .BID, 1, 100, .LIMIT⟩ } : Sim).execute_last_order =
      some { Sim.init [] 0 0 with
             ready_to_execute_orders :=
               dictInsert (Sim.init [] 0 0).ready_to_execute_orders 0
                 ⟨0, 0, 0, .BID, 1, 100, .LIMIT⟩
             last_order := none } :=
  ⟨(pre_md_orders_always_rest (Sim.init [] 0 0) (Reachable.init [] 0 0) rfl).1,
   (pre_md_orders_always_rest (Sim.init [] 0 0) (Reachable.init [] 0 0) rfl).2
     ⟨0, 0, 0, .BID, 1, 100, .LIMIT⟩⟩

/-- Closed form of the `execute_orders` fill chain: an order fills exactly
when it is marketable against the touch or crosses a last-trade price, the
executed price is its own limit, and the venue is BOOK when it is book-
marketable (either of the first two conditions) and TRADE otherwise. -/
theorem Sim.order_fill_eq (s : Sim) (o : Order) :
    s.order_fill o =
      if (o.side = Side.BID ∧ fq o.price > s.best_ask) ∨
         (o.side = Side.ASK ∧ fq o.price < s.best_bid) ∨
         (o.side = Side.BID ∧ fq o.price > s.trade_price_ask) ∨
         (o.side = Side.ASK ∧ fq o.price < s.trade_price_bid) then
        some (o.price,
          if (o.side = Side.BID ∧ fq o.price > s.best_ask) ∨
             (o.side = Side.ASK ∧ fq o.price < s.best_bid)
          then Venue.BOOK else Venue.TRADE)
      else none := by
  cases hside : o.side <;>
    simp only [Sim.order_fill, hside] <;>
    split_ifs <;> simp_all [← not_lt]

/-- Deleting a list of keys from a Python dict keeps exactly the entries
whose key is not in the list. -/
theorem foldl_dictPop (ids : List ℕ) (l : List (ℕ × Order)) :
    ids.foldl dictPop l = l.filter (fun p => decide (p.1 ∉ ids)) := by
  induction ids generalizing l with
  | nil => simp
  | cons k ks ih =>
    rw [List.foldl_cons, ih, dictPop, List.filter_filter]
    apply List.filter_congr
    intro p hp
    simp [List.mem_cons, not_or, Bool.and_comm]

/-- Closed form of the passive-resolution loop: the surviving state only
advances the trade-id counter and pushes one maker trade per filling entry of
the walked items, in map order, and the accumulated deletion list extends by
exactly the filling entries' ids. -/
theorem Sim.execute_orders_go_spec (m : MdUpdate) (bb ba tpb tpa : XQ) (lat : ℚ) :
    ∀ (items : List (ℕ × Order)) (acc : List ℕ) (s : Sim),
      s.md = some m → s.best_bid = bb → s.best_ask = ba →
      s.trade_price_bid = tpb → s.trade_price_ask = tpa → s.md_latency = lat →
      s.execute_orders_go items acc =
        some
          (let G :=
            (items.filter (fun p =>
              decide ((p.2.side = Side.BID ∧ fq p.2.price > ba) ∨
                (p.2.side = Side.ASK ∧ fq p.2.price < bb) ∨
                (p.2.side = Side.BID ∧ fq p.2.price > tpa) ∨
                (p.2.side = Side.ASK ∧ fq p.2.price < tpb)))).foldl
              (fun (a : ℕ × PriorQueue StratUpdate) p =>
                (a.1 + 1,
                 a.2.push (m.exchange_ts + lat)
                   (.ownTrade
                     { place_ts := p.2.place_ts
                       exchange_ts := m.exchange_ts
                       receive_ts := m.exchange_ts + lat
                       trade_id := a.1
                       order_id := p.1
                       side := p.2.side
                       size := p.2.size
                       price := fq p.2.price
                       trade_type := TradeKind.MAKER
                       execute :=
                         if (p.2.side = Side.BID ∧ fq p.2.price > ba) ∨
                            (p.2.side = Side.ASK ∧ fq p.2.price < bb)
                         then Venue.BOOK else Venue.TRADE })))
              (s.trade_id, s.strategy_updates_queue)
          ({ s with
             trade_id := G.1
             strategy_updates_queue := G.2 },
           acc ++
             (items.filter (fun p =>
               decide ((p.2.side = Side.BID ∧ fq p.2.price > ba) ∨
                 (p.2.side = Side.ASK ∧ fq p.2.price < bb) ∨
                 (p.2.side = Side.BID ∧ fq p.2.price > tpa) ∨
                 (p.2.side = Side.ASK ∧ fq p.2.price < tpb)))).map Prod.fst)) := by
  intro items
  induction items with
  | nil =>
    intro acc s hmd hbb hba htpb htpa hlat
    simp [Sim.execute_orders_go]
  | cons hd tl ih =>
    intro acc s hmd hbb hba htpb htpa hlat
    obtain ⟨oid, o⟩ := hd
    rw [Sim.execute_orders_go, Sim.order_fill_eq, hbb, hba, htpb, htpa]
    by_cases hfill : (o.side = Side.BID ∧ fq o.price > ba) ∨
        (o.side = Side.ASK ∧ fq o.price < bb) ∨
        (o.side = Side.BID ∧ fq o.price > tpa) ∨
        (o.side = Side.ASK ∧ fq o.price < tpb)
    · rw [if_pos hfill]
      simp only [hmd, hbb, hba, htpb, htpa, hlat]
      rw [ih (acc ++ [oid]) _ rfl rfl rfl rfl rfl rfl]
      simp [hfill]
    · rw [if_neg hfill]
      simp only [ih acc s hmd hbb hba htpb htpa hlat]
      simp [hfill]
      exact ⟨hbb, hba, htpb, htpa⟩

/-- C4: a passive-resolution pass fills each resting order that is marketable
against the current best bid/ask at venue BOOK, otherwise each order whose
limit is crossed by this tick's trade price at venue TRADE; every fill
executes at the order's own limit price as a MAKER trade carrying the order's
placement timestamp, with receive timestamp the current update's exchange
timestamp plus the market-data latency; trades are pushed in map order with
consecutive trade ids, and the filled orders are removed only after the full
pass (the final map is the original map filtered to the non-filling entries,
and every filling entry of the original map produced its trade). -/
theorem passive_pass_resolution (s : Sim) (m : MdUpdate) (hmd : s.md = some m)
    (hnodup : (s.ready_to_execute_orders.map Prod.fst).Nodup) :
    s.execute_orders = some
      (let G :=
        (s.ready_to_execute_orders.filter (fun p =>
          decide ((p.2.side = Side.BID ∧ fq p.2.price > s.best_ask) ∨
            (p.2.side = Side.ASK ∧ fq p.2.price < s.best_bid) ∨
            (p.2.side = Side.BID ∧ fq p.2.price > s.trade_price_ask) ∨
            (p.2.side = Side.ASK ∧ fq p.2.price < s.trade_price_bid)))).foldl
          (fun (a : ℕ × PriorQueue StratUpdate) p =>
            (a.1 + 1,
             a.2.push (m.exchange_ts + s.md_latency)
               (.ownTrade
                 { place_ts := p.2.place_ts
                   exchange_ts := m.exchange_ts
                   receive_ts := m.exchange_ts + s.md_latency
                   trade_id := a.1
                   order_id := p.1
                   side := p.2.side
                   size := p.2.size
                   price := fq p.2.price
                   trade_type := TradeKind.MAKER
                   execute :=
                     if (p.2.side = Side.BID ∧ fq p.2.price > s.best_ask) ∨
                        (p.2.side = Side.ASK ∧ fq p.2.price < s.best_bid)
                     then Venue.BOOK else Venue.TRADE })))
          (s.trade_id, s.strategy_updates_queue)
      { s with
        trade_id := G.1
        strategy_updates_queue := G.2
        ready_to_execute_orders :=
          s.ready_to_execute_orders.filter (fun p =>
            decide (¬((p.2.side = Side.BID ∧ fq p.2.price > s.best_ask) ∨
              (p.2.side = Side.ASK ∧ fq p.2.price < s.best_bid) ∨
              (p.2.side = Side.BID ∧ fq p.2.price > s.trade_price_ask) ∨
              (p.2.side = Side.ASK ∧ fq p.2.price < s.trade_price_bid)))) }) := by
  unfold Sim.execute_orders
  rw [Sim.execute_orders_go_spec m s.best_bid s.best_ask s.trade_price_bid
    s.trade_price_ask s.md_latency s.ready_to_execute_orders [] s hmd rfl rfl rfl rfl rfl]
  simp only [Option.map, List.nil_append]
  rw [foldl_dictPop]
  have hiff : ∀ p ∈ s.ready_to_execute_orders,
      (p.1 ∈ (s.ready_to_execute_orders.filter (fun p =>
        decide ((p.2.side = Side.BID ∧ fq p.2.price > s.best_ask) ∨
          (p.2.side = Side.ASK ∧ fq p.2.price < s.best_bid) ∨
          (p.2.side = Side.BID ∧ fq p.2.price > s.trade_price_ask) ∨
          (p.2.side = Side.ASK ∧ fq p.2.price < s.trade_price_bid)))).map Prod.fst ↔
        ((p.2.side = Side.BID ∧ fq p.2.price > s.best_ask) ∨
         (p.2.side = Side.ASK ∧ fq p.2.price < s.best_bid) ∨
         (p.2.side = Side.BID ∧ fq p.2.price > s.trade_price_ask) ∨
         (p.2.side = Side.ASK ∧ fq p.2.price < s.trade_price_bid))) := by
    intro p hp
    constructor
    · intro hmem
      obtain ⟨q, hq, hq1⟩ := List.mem_map.mp hmem
      obtain ⟨hqmem, hqfill⟩ := List.mem_filter.mp hq
      have : q = p := List.inj_on_of_nodup_map hnodup hqmem hp hq1
      subst this
      exact of_decide_eq_true hqfill
    · intro hfill
      exact List.mem_map.mpr ⟨p, List.mem_filter.mpr ⟨hp, decide_eq_true hfill⟩, rfl⟩
  have heq : List.filter (fun p =>
      decide (p.1 ∉
        List.map Prod.fst
          (List.filter (fun p =>
            decide ((p.2.side = Side.BID ∧ fq p.2.price > s.best_ask) ∨
              (p.2.side = Side.ASK ∧ fq p.2.price < s.best_bid) ∨
              (p.2.side = Side.BID ∧ fq p.2.price > s.trade_price_ask) ∨
              (p.2.side = Side.ASK ∧ fq p.2.price < s.trade_price_bid)))
            s.ready_to_execute_orders)))
      s.ready_to_execute_orders =
    List.filter (fun p =>
      decide (¬((p.2.side = Side.BID ∧ fq p.2.price > s.best_ask) ∨
        (p.2.side = Side.ASK ∧ fq p.2.price < s.best_bid) ∨
        (p.2.side = Side.BID ∧ fq p.2.price > s.trade_price_ask) ∨
        (p.2.side = Side.ASK ∧ fq p.2.price < s.trade_price_bid))))
      s.ready_to_execute_orders := by
    apply List.filter_congr
    intro p hp
    simp only [decide_eq_decide]
    exact not_congr (hiff p hp)
  rw [heq]

/-- C4 witness: one book-marketable resting buy produces one maker trade at
its own limit price and empties the map. -/
theorem passive_pass_resolution_witness :
    ({ Sim.init [] 0 1 with
       md := some ⟨2, 3, none, none⟩
       best_ask := fq 5
       ready_to_execute_orders := [(0, ⟨0, 0, 0, .BID, 1, 10, .LIMIT⟩)] } : Sim).execute_orders =
      some { Sim.init [] 0 1 with
             md := some ⟨2, 3, none, none⟩
             best_ask := fq 5
             trade_id := 1
             strategy_updates_queue :=
               ⟨[(2 + 1, .ownTrade ⟨0, 2, 2 + 1, 0, 0, .BID, 1, fq 10, .MAKER, .BOOK⟩)]⟩
             ready_to_execute_orders := [] } := by
  rw [passive_pass_resolution _ ⟨2, 3, none, none⟩ rfl (by decide)]
  rfl

/-- The driving loop of spec §2/§5: repeatedly call `tick`, collecting the
returned batches, until exhaustion or the fuel bound. -/
def Sim.runTicks : ℕ → Sim → List (ℚ × List StratUpdate) × Sim
  | 0, s => ([], s)
  | fuel + 1, s =>
    match s.tick with
    | none => ([], s)
    | some (b, s') =>
      let r := Sim.runTicks fuel s'
      (b :: r.1, r.2)

/-- The passive pass over an empty resting map changes nothing. -/
theorem Sim.execute_orders_nil (s : Sim) (h : s.ready_to_execute_orders = []) :
    s.execute_orders = some s := by
  simp only [Sim.execute_orders, h, Sim.execute_orders_go, Option.map, List.foldl_nil]
  rw [← h]

/-- A push whose key is `≥` every present key lands at the end of the
entry list. -/
theorem insertEntry_append {α : Type} (k : ℚ) (v : α) (l : List (ℚ × α))
    (h : ∀ e ∈ l, e.1 ≤ k) : insertEntry k v l = l ++ [(k, v)] := by
  induction l with
  | nil => rfl
  | cons e rest ih =>
    rw [insertEntry, if_neg (not_lt.mpr (h e (List.mem_cons_self e rest)))]
    rw [ih fun e' he' => h e' (List.mem_cons_of_mem e he')]
    rfl

/-- A tick-loop iteration with no queued actions and an empty resting map
just consumes the front market-data update: pop it, make it current, refresh
the touch, push the echo keyed by its receive timestamp, and reset the
last-trade prices. -/
theorem Sim.tickStep_no_actions (s : Sim) (m : MdUpdate) (rest : List MdUpdate)
    (hqa : s.actions_queue = []) (hready : s.ready_to_execute_orders = [])
    (hqm : s.md_queue = m :: rest) :
    s.tickStep = some
      { s with
        md_queue := rest
        md := some m
        best_bid := (update_best_positions s.best_bid s.best_ask m).1
        best_ask := (update_best_positions s.best_bid s.best_ask m).2
        strategy_updates_queue := s.strategy_updates_queue.push m.receive_ts (.mdUpd m)
        trade_price_bid := ⊥
        trade_price_ask := ⊤ } := by
  have hact_top : s.get_actions_queue_event_time = ⊤ := by
    simp [Sim.get_actions_queue_event_time, hqa]
  have hmd_et : s.get_md_queue_event_time = (m.exchange_ts : WithTop ℚ) := by
    simp [Sim.get_md_queue_event_time, hqm]
  have hmd : s.get_md_queue_event_time ≤ s.get_actions_queue_event_time := by
    rw [hact_top]
    exact le_top
  have hact : ¬ s.get_actions_queue_event_time ≤ s.get_md_queue_event_time := by
    rw [hact_top, hmd_et]
    simp
  rw [Sim.tickStep_md_only s m rest hmd hact hqm]
  rw [Sim.execute_orders_nil _ (by
    rw [(Sim.apply_md_spec { s with md_queue := rest } m).2.2.1]
    simpa using hready)]
  simp only [Option.map]
  cases htr : m.trade with
  | none => simp [Sim.apply_md, htr, Sim.delete_last_trade]
  | some t =>
    obtain ⟨ets, rts, side, sz, px⟩ := t
    cases side <;>
      simp [Sim.apply_md, htr, Sim.set_trade_price, Sim.delete_last_trade]

/-- In no-actions mode the tick loop consumes a prefix of the market-data
queue: each consumed update is echoed to the end of the notification queue
(keyed by its receive timestamp) and folded into the touch, and the loop
only stops with an empty notification queue when everything is exhausted. -/
theorem Sim.loop_no_actions :
    ∀ (n : ℕ) (remaining buffered : List MdUpdate) (s : Sim),
      remaining.length ≤ n →
      s.actions_queue = [] → s.ready_to_execute_orders = [] →
      s.last_order = none → s.md_queue = remaining →
      s.strategy_updates_queue =
        ⟨buffered.map fun r => (r.receive_ts, StratUpdate.mdUpd r)⟩ →
      List.Pairwise (fun a b => a.receive_ts ≤ b.receive_ts) (buffered ++ remaining) →
      ∃ (taken rest : List MdUpdate) (s' : Sim),
        remaining = taken ++ rest ∧
        s.tickLoop = some s' ∧
        s'.md_queue = rest ∧ s'.actions_queue = [] ∧
        s'.ready_to_execute_orders = [] ∧ s'.last_order = none ∧
        s'.strategy_updates_queue =
          ⟨(buffered ++ taken).map fun r => (r.receive_ts, StratUpdate.mdUpd r)⟩ ∧
        (s'.best_bid, s'.best_ask) =
          taken.foldl (fun p u => update_best_positions p.1 p.2 u)
            (s.best_bid, s.best_ask) ∧
        (buffered = [] → taken = [] → rest = []) := by
  intro n
  induction n with
  | zero =>
    intro remaining buffered s hn ha hr hl hq hsq hsort
    have hrem : remaining = [] := List.length_eq_zero.mp (Nat.le_zero.mp hn)
    subst hrem
    refine ⟨[], [], s, rfl, ?_, hq, ha, hr, hl, by simpa using hsq, by simp,
      fun _ _ => rfl⟩
    exact Sim.tickLoop_stop_empty s
      ⟨by simp [Sim.get_md_queue_event_time, hq],
       by simp [Sim.get_actions_queue_event_time, ha]⟩
  | succ n ih =>
    intro remaining buffered s hn ha hr hl hq hsq hsort
    cases remaining with
    | nil =>
      refine ⟨[], [], s, rfl, ?_, hq, ha, hr, hl, by simpa using hsq, by simp,
        fun _ _ => rfl⟩
      exact Sim.tickLoop_stop_empty s
        ⟨by simp [Sim.get_md_queue_event_time, hq],
         by simp [Sim.get_actions_queue_event_time, ha]⟩
    | cons m rest0 =>
      have hne : ¬(s.get_md_queue_event_time = ⊤ ∧ s.get_actions_queue_event_time = ⊤) := by
        rintro ⟨h1, -⟩
        rw [Sim.get_md_queue_event_time, hq] at h1
        exact WithTop.coe_ne_top h1
      by_cases hstop : s.get_strategy_updates_queue_event_time <
          min s.get_md_queue_event_time s.get_actions_queue_event_time
      · refine ⟨[], m :: rest0, s, rfl, Sim.tickLoop_stop_notif s hne hstop,
          hq, ha, hr, hl, by simpa using hsq, by simp, ?_⟩
        intro hbuf _
        exfalso
        rw [Sim.get_strategy_updates_queue_event_time, hsq, hbuf] at hstop
        simp only [List.map_nil, PriorQueue.min_key] at hstop
        exact not_top_lt hstop
      · have hstep := Sim.tickStep_no_actions s m rest0 ha hr hq
        have hcross := (List.pairwise_append.mp hsort).2.2
        set R : Sim :=
          { s with
            md_queue := rest0
            md := some m
            best_bid := (update_best_positions s.best_bid s.best_ask m).1
            best_ask := (update_best_positions s.best_bid s.best_ask m).2
            strategy_updates_queue := s.strategy_updates_queue.push m.receive_ts (.mdUpd m)
            trade_price_bid := ⊥
            trade_price_ask := ⊤ } with hR
        have hpushR : R.strategy_updates_queue =
            ⟨(buffered ++ [m]).map fun r => (r.receive_ts, StratUpdate.mdUpd r)⟩ := by
          rw [hR]
          simp only [PriorQueue.push, hsq]
          rw [insertEntry_append]
          · simp
          · intro e he
            obtain ⟨r, hrmem, hre⟩ := List.mem_map.mp he
            rw [← hre]
            exact hcross r hrmem m (List.mem_cons_self m rest0)
        obtain ⟨taken', rest', s', hsplit, hloop1, g1, g2, g3, g4, g5, g6, g7⟩ :=
          ih rest0 (buffered ++ [m]) R
            (by simpa using Nat.le_of_succ_le_succ hn)
            (by rw [hR]; simpa using ha)
            (by rw [hR]; simpa using hr)
            (by rw [hR]; simpa using hl)
            (by rw [hR])
            hpushR
            (by simpa [List.append_assoc] using hsort)
        refine ⟨m :: taken', rest', s', by simp [hsplit], ?_, g1, g2, g3, g4, ?_, ?_, ?_⟩
        · rw [Sim.tickLoop_continue s hne hstop, hstep]
          simpa using hloop1
        · rw [g5]
          simp
        · rw [g6]
          simp [Prod.mk.eta]
        · intro _ htk
          simp at htk

/-- Popping a queue with a nonempty entry list returns the head key, the
values of the leading run sharing that key, and the remaining entries. -/
theorem PriorQueue.pop_cons {α : Type} (e : ℚ × α) (L : List (ℚ × α)) :
    PriorQueue.pop ⟨e :: L⟩ =
      some (e.1, ((e :: L).takeWhile (fun p => decide (p.1 = e.1))).map Prod.snd,
        ⟨(e :: L).dropWhile (fun p => decide (p.1 = e.1))⟩) := rfl

/-- Full run in no-actions mode: the concatenation of the returned batches
is exactly the buffered-then-pending input echoes in order, every value of a
batch is an echo carrying the batch's own key as its receive timestamp, and
the final touch is the fold of the Best-Price Tracker over the pending
updates. -/
theorem Sim.run_no_actions :
    ∀ (fuel : ℕ) (buffered remaining : List MdUpdate) (s : Sim),
      (buffered ++ remaining).length ≤ fuel →
      s.actions_queue = [] → s.ready_to_execute_orders = [] →
      s.last_order = none → s.md_queue = remaining →
      s.strategy_updates_queue =
        ⟨buffered.map fun r => (r.receive_ts, StratUpdate.mdUpd r)⟩ →
      List.Pairwise (fun a b => a.receive_ts ≤ b.receive_ts) (buffered ++ remaining) →
      ((s.runTicks fuel).1.flatMap fun b => b.2) =
        (buffered ++ remaining).map StratUpdate.mdUpd ∧
      (∀ b ∈ (s.runTicks fuel).1, ∀ v ∈ b.2, ∃ r, v = StratUpdate.mdUpd r ∧
        r.receive_ts = b.1) ∧
      (s.runTicks fuel).2.best_bid =
        (remaining.foldl (fun p u => update_best_positions p.1 p.2 u)
          (s.best_bid, s.best_ask)).1 ∧
      (s.runTicks fuel).2.best_ask =
        (remaining.foldl (fun p u => update_best_positions p.1 p.2 u)
          (s.best_bid, s.best_ask)).2 := by
  intro fuel
  induction fuel with
  | zero =>
    intro buffered remaining s hn ha hr hl hq hsq hsort
    have h1 : (buffered ++ remaining).length = 0 := Nat.le_zero.mp hn
    rw [List.length_append] at h1
    have hb1 : buffered = [] := List.eq_nil_of_length_eq_zero (by omega)
    have hb2 : remaining = [] := List.eq_nil_of_length_eq_zero (by omega)
    subst hb1
    subst hb2
    simp [Sim.runTicks]
  | succ fuel ih =>
    intro buffered remaining s hn ha hr hl hq hsq hsort
    obtain ⟨taken, rest, s', hsplit, hloop, g1, g2, g3, g4, g5, g6, g7⟩ :=
      Sim.loop_no_actions remaining.length remaining buffered s le_rfl
        ha hr hl hq hsq hsort
    subst hsplit
    cases hall : buffered ++ taken with
    | nil =>
      -- nothing buffered, nothing taken: the run is already over
      have hbuf : buffered = [] := (List.append_eq_nil.mp hall).1
      have htak : taken = [] := (List.append_eq_nil.mp hall).2
      have hrest : rest = [] := g7 hbuf htak
      subst hbuf
      subst htak
      subst hrest
      have htick : s.tick = none := by
        unfold Sim.tick
        rw [hloop]
        simp [g5, PriorQueue.pop]
      simp [Sim.runTicks, htick]
    | cons a0 atl =>
      have hpop : s'.strategy_updates_queue.pop =
          some (a0.receive_ts,
            (((buffered ++ taken).takeWhile
                (fun r => decide (r.receive_ts = a0.receive_ts))).map
              StratUpdate.mdUpd),
            ⟨((buffered ++ taken).dropWhile
                (fun r => decide (r.receive_ts = a0.receive_ts))).map
              (fun r => (r.receive_ts, StratUpdate.mdUpd r))⟩) := by
        rw [g5, hall, List.map_cons, PriorQueue.pop_cons]
        rw [show ((a0.receive_ts, StratUpdate.mdUpd a0) ::
            List.map (fun r => (r.receive_ts, StratUpdate.mdUpd r)) atl) =
            List.map (fun r => (r.receive_ts, StratUpdate.mdUpd r)) (a0 :: atl) from rfl]
        rw [List.takeWhile_map, List.dropWhile_map, List.map_map]
        rfl
      have htick : s.tick =
          some ((a0.receive_ts,
            ((buffered ++ taken).takeWhile
                (fun r => decide (r.receive_ts = a0.receive_ts))).map
              StratUpdate.mdUpd),
            { s' with strategy_updates_queue :=
              ⟨((buffered ++ taken).dropWhile
                  (fun r => decide (r.receive_ts = a0.receive_ts))).map
                (fun r => (r.receive_ts, StratUpdate.mdUpd r))⟩ }) := by
        unfold Sim.tick
        rw [hloop]
        simp only [hpop]
      -- measure for the recursive call
      have htake_len : 1 ≤ ((buffered ++ taken).takeWhile
          (fun r => decide (r.receive_ts = a0.receive_ts))).length := by
        rw [hall]
        simp [List.takeWhile_cons]
      have hlen_split : ((buffered ++ taken).takeWhile
            (fun r => decide (r.receive_ts = a0.receive_ts))).length +
          ((buffered ++ taken).dropWhile
            (fun r => decide (r.receive_ts = a0.receive_ts))).length =
          (buffered ++ taken).length := by
        have h0 := congrArg List.length (List.takeWhile_append_dropWhile
          (fun r => decide (r.receive_ts = a0.receive_ts)) (buffered ++ taken))
        rw [List.length_append] at h0
        exact h0
      have hsort' : List.Pairwise (fun a b => a.receive_ts ≤ b.receive_ts)
          ((buffered ++ taken) ++ rest) := by
        simpa [List.append_assoc] using hsort
      have hsort'' : List.Pairwise (fun a b => a.receive_ts ≤ b.receive_ts)
          (((buffered ++ taken).dropWhile
            (fun r => decide (r.receive_ts = a0.receive_ts))) ++ rest) := by
        obtain ⟨h1, h2, h3⟩ := List.pairwise_append.mp hsort'
        refine List.pairwise_append.mpr ⟨?_, h2, ?_⟩
        · exact h1.sublist (List.dropWhile_sublist _)
        · intro x hx y hy
          exact h3 x ((List.dropWhile_sublist _).subset hx) y hy
      obtain ⟨ihA, ihB, ihC, ihD⟩ :=
        ih ((buffered ++ taken).dropWhile
              (fun r => decide (r.receive_ts = a0.receive_ts))) rest
          { s' with strategy_updates_queue :=
              ⟨((buffered ++ taken).dropWhile
                  (fun r => decide (r.receive_ts = a0.receive_ts))).map
                (fun r => (r.receive_ts, StratUpdate.mdUpd r))⟩ }
          (by
            have h2 := hlen_split
            simp only [List.length_append] at hn h2 ⊢
            omega)
          (by simpa using g2) (by simpa using g3) (by simpa using g4)
          (by simpa using g1) rfl hsort''
      have hrun : s.runTicks (fuel + 1) =
          ((a0.receive_ts,
            ((buffered ++ taken).takeWhile
                (fun r => decide (r.receive_ts = a0.receive_ts))).map
              StratUpdate.mdUpd) ::
            (({ s' with strategy_updates_queue :=
                ⟨((buffered ++ taken).dropWhile
                    (fun r => decide (r.receive_ts = a0.receive_ts))).map
                  (fun r => (r.receive_ts, StratUpdate.mdUpd r))⟩ } : Sim).runTicks
              fuel).1,
            (({ s' with strategy_updates_queue :=
                ⟨((buffered ++ taken).dropWhile
                    (fun r => decide (r.receive_ts = a0.receive_ts))).map
                  (fun r => (r.receive_ts, StratUpdate.mdUpd r))⟩ } : Sim).runTicks
              fuel).2) := by
        rw [Sim.runTicks, htick]
      refine ⟨?_, ?_, ?_, ?_⟩
      · rw [hrun]
        simp only [List.flatMap_cons]
        rw [ihA]
        rw [← List.map_append, ← List.append_assoc,
          List.takeWhile_append_dropWhile, List.append_assoc]
      · rw [hrun]
        intro b hb v hv
        rcases List.mem_cons.mp hb with hb1 | hb2
        · subst hb1
          simp only at hv
          obtain ⟨r, hrmem, hrv⟩ := List.mem_map.mp hv
          refine ⟨r, hrv.symm, ?_⟩
          have := List.mem_takeWhile_imp hrmem
          simpa using this
        · exact ihB b hb2 v hv
      · rw [hrun]
        simp only
        rw [ihC]
        have : (s'.best_bid, s'.best_ask) =
            taken.foldl (fun p u => update_best_positions p.1 p.2 u)
              (s.best_bid, s.best_ask) := g6
        rw [List.foldl_append]
        simp only []
        rw [← this]
      · rw [hrun]
        simp only
        rw [ihD]
        rw [List.foldl_append]
        rw [← g6]

/-- The last row of `md_to_dataframe`'s running-best columns is the fold of
the Best-Price Tracker over the whole list. -/
theorem md_to_dataframe_go_getLastD :
    ∀ (l : List MdUpdate) (bb ba : XQ),
      (md_to_dataframe_go bb ba l).getLastD (bb, ba) =
        l.foldl (fun p u => update_best_positions p.1 p.2 u) (bb, ba) := by
  intro l
  induction l with
  | nil => intro bb ba; rfl
  | cons m tl ih =>
    intro bb ba
    rw [md_to_dataframe_go, List.foldl_cons]
    rcases hu : update_best_positions bb ba m with ⟨x, y⟩
    simp only [hu, List.getLastD_cons]
    exact ih x y

/-- A push adds exactly one occurrence of the pushed value to the queue's
value list and leaves every other count unchanged. -/
theorem count_insertEntry {α : Type} [DecidableEq α] (k : ℚ) (v : α) :
    ∀ (l : List (ℚ × α)) (w : α),
      ((insertEntry k v l).map Prod.snd).count w =
        ((l.map Prod.snd).count w) + (if v = w then 1 else 0) := by
  intro l
  induction l with
  | nil =>
    intro w
    simp [insertEntry, List.count_cons]
  | cons e rest ih =>
    intro w
    rw [insertEntry]
    by_cases hk : k < e.1
    · rw [if_pos hk]
      simp [List.count_cons]
    · rw [if_neg hk]
      simp [List.count_cons, ih]
      omega

theorem PriorQueue.count_push {α : Type} [DecidableEq α]
    (q : PriorQueue α) (k : ℚ) (v w : α) :
    (((q.push k v).entries.map Prod.snd).count w) =
      ((q.entries.map Prod.snd).count w) + (if v = w then 1 else 0) :=
  count_insertEntry k v q.entries w

/-- Aggressive resolution either leaves the notification queue and the trade
counter alone, or generates exactly one trade carrying the current counter as
its id, pushes it once keyed by its own receive timestamp, and bumps the
counter. -/
theorem Sim.execute_last_order_queue (x x' : Sim)
    (h : x.execute_last_order = some x') :
    (x'.strategy_updates_queue = x.strategy_updates_queue ∧
      x'.trade_id = x.trade_id) ∨
    (∃ t : OwnTrade, t.trade_id = x.trade_id ∧ x'.trade_id = x.trade_id + 1 ∧
      x'.strategy_updates_queue =
        x.strategy_updates_queue.push t.receive_ts (.ownTrade t)) := by
  unfold Sim.execute_last_order at h
  repeat' split at h
  all_goals cases h
  all_goals first
    | exact Or.inl ⟨rfl, rfl⟩
    | exact Or.inr ⟨_, rfl, rfl, rfl⟩

/-- The passive pass pushes exactly one trade per filling entry, in map
order: the pushed trades carry consecutive ids starting at the current
counter, each is pushed once keyed by its own receive timestamp, and the
counter advances by their number. -/
theorem Sim.execute_orders_go_queue :
    ∀ (items : List (ℕ × Order)) (acc : List ℕ) (s s' : Sim) (ids : List ℕ),
      s.execute_orders_go items acc = some (s', ids) →
      ∃ ts : List OwnTrade,
        (∀ i (h : i < ts.length), (ts.get ⟨i, h⟩).trade_id = s.trade_id + i) ∧
        s'.trade_id = s.trade_id + ts.length ∧
        s'.strategy_updates_queue =
          ts.foldl (fun q t => q.push t.receive_ts (.ownTrade t))
            s.strategy_updates_queue := by
  intro items
  induction items with
  | nil =>
    intro acc s s' ids h
    simp [Sim.execute_orders_go] at h
    refine ⟨[], by simp, by simp [h.1], by simp [h.1]⟩
  | cons hd tl ih =>
    intro acc s s' ids h
    obtain ⟨oid, o⟩ := hd
    rw [Sim.execute_orders_go] at h
    cases hf : s.order_fill o with
    | none =>
      rw [hf] at h
      exact ih _ _ _ _ h
    | some pv =>
      rw [hf] at h
      cases hmd : s.md with
      | none => rw [hmd] at h; simp at h
      | some m =>
        rw [hmd] at h
        obtain ⟨ts', hids, htid, hq⟩ := ih _ _ _ _ h
        refine ⟨⟨o.place_ts, m.exchange_ts, m.exchange_ts + s.md_latency,
          s.trade_id, oid, o.side, o.size, fq pv.1, .MAKER, pv.2⟩ :: ts', ?_, ?_, ?_⟩
        · intro i hi
          cases i with
          | zero => simp
          | succ i =>
            have hh : i < ts'.length := by simpa using hi
            have := hids i hh
            simp only [List.get] at this ⊢
            rw [this]
            omega
        · rw [htid]
          simp only [List.length_cons]
          omega
        · rw [hq]
          rfl

theorem Sim.execute_orders_queue (s s' : Sim) (h : s.execute_orders = some s') :
    ∃ ts : List OwnTrade,
      (∀ i (h : i < ts.length), (ts.get ⟨i, h⟩).trade_id = s.trade_id + i) ∧
      s'.trade_id = s.trade_id + ts.length ∧
      s'.strategy_updates_queue =
        ts.foldl (fun q t => q.push t.receive_ts (.ownTrade t))
          s.strategy_updates_queue := by
  unfold Sim.execute_orders at h
  cases hg : s.execute_orders_go s.ready_to_execute_orders [] with
  | none => simp [hg] at h
  | some p =>
    simp only [hg, Option.map] at h
    obtain ⟨ts, hids, htid, hq⟩ :=
      Sim.execute_orders_go_queue _ _ s p.1 p.2 (by simpa using hg)
    cases h
    exact ⟨ts, hids, htid, hq⟩

/-- Counting through a sequence of pushes. -/
theorem count_foldl_push (w : StratUpdate) :
    ∀ (ts : List OwnTrade) (q : PriorQueue StratUpdate),
      (((ts.foldl (fun q t => q.push t.receive_ts (.ownTrade t)) q).entries.map
          Prod.snd).count w) =
        ((q.entries.map Prod.snd).count w) +
          ((ts.map StratUpdate.ownTrade).count w) := by
  intro ts
  induction ts with
  | nil => intro q; simp
  | cons t tl ih =>
    intro q
    rw [List.foldl_cons, ih, PriorQueue.count_push]
    simp [List.count_cons]
    omega

/-- A list of trades with consecutive ids from a base contains each value at
most once, and only values with ids in the covered range. -/
theorem trades_consecutive_count (c : ℕ) :
    ∀ (ts : List OwnTrade),
      (∀ i (h : i < ts.length), (ts.get ⟨i, h⟩).trade_id = c + i) →
      (∀ t : OwnTrade, ts.count t ≤ 1) ∧
      (∀ t ∈ ts, c ≤ t.trade_id ∧ t.trade_id < c + ts.length) := by
  have key : ∀ (n : ℕ) (c : ℕ) (ts : List OwnTrade), ts.length ≤ n →
      (∀ i (h : i < ts.length), (ts.get ⟨i, h⟩).trade_id = c + i) →
      (∀ t : OwnTrade, ts.count t ≤ 1) ∧
      (∀ t ∈ ts, c ≤ t.trade_id ∧ t.trade_id < c + ts.length) := by
    intro n
    induction n with
    | zero =>
      intro c ts hn hids
      have : ts = [] := List.eq_nil_of_length_eq_zero (Nat.le_zero.mp hn)
      subst this
      simp
    | succ n ihn =>
      intro c ts hn hids
      cases ts with
      | nil => simp
      | cons t0 tl =>
        have h0 : t0.trade_id = c := by
          have := hids 0 (by simp)
          simpa using this
        have hids' : ∀ i (h : i < tl.length), (tl.get ⟨i, h⟩).trade_id = (c + 1) + i := by
          intro i hh
          have := hids (i + 1) (by simpa using Nat.succ_lt_succ hh)
          simp only [List.get] at this
          rw [this]
          omega
        obtain ⟨ihc, ihm⟩ := ihn (c + 1) tl (by simpa using Nat.le_of_succ_le_succ hn) hids'
        constructor
        · intro t
          rw [List.count_cons]
          by_cases ht : t0 = t
          · subst ht
            have hz : tl.count t0 = 0 := by
              by_contra hnz
              have hmem : t0 ∈ tl := List.count_pos_iff.mp (Nat.pos_of_ne_zero hnz)
              have := (ihm t0 hmem).1
              omega
            simp [hz]
          · simp [ht]
            exact ihc t
        · intro t hmem
          rcases List.mem_cons.mp hmem with h | h
          · subst h
            constructor
            · omega
            · simp
              omega
          · have := ihm t h
            constructor
            · omega
            · simp
              omega
  intro ts
  exact key ts.length c ts le_rfl

/-- How one engine operation may evolve the notification queue: the trade
counter never decreases, queue value counts never decrease (nothing is ever
removed outside `pop`), each own-trade value is pushed at most once, a trade
whose id is below the incoming counter is never pushed again, and any newly
pushed trade carries an id between the incoming and outgoing counters. -/
def CountStep (y w : Sim) : Prop :=
  y.trade_id ≤ w.trade_id ∧
  (∀ v : StratUpdate,
    (y.strategy_updates_queue.entries.map Prod.snd).count v ≤
    (w.strategy_updates_queue.entries.map Prod.snd).count v) ∧
  ∀ t : OwnTrade,
    ((w.strategy_updates_queue.entries.map Prod.snd).count (.ownTrade t) ≤
      (y.strategy_updates_queue.entries.map Prod.snd).count (.ownTrade t) + 1) ∧
    (t.trade_id < y.trade_id →
      (w.strategy_updates_queue.entries.map Prod.snd).count (.ownTrade t) =
      (y.strategy_updates_queue.entries.map Prod.snd).count (.ownTrade t)) ∧
    ((y.strategy_updates_queue.entries.map Prod.snd).count (.ownTrade t) <
      (w.strategy_updates_queue.entries.map Prod.snd).count (.ownTrade t) →
      y.trade_id ≤ t.trade_id ∧ t.trade_id < w.trade_id)

theorem CountStep_of_eq (y w : Sim)
    (hq : w.strategy_updates_queue = y.strategy_updates_queue)
    (ht : w.trade_id = y.trade_id) : CountStep y w := by
  rw [CountStep, hq, ht]
  exact ⟨le_rfl, fun v => le_rfl,
    fun t => ⟨by omega, fun _ => rfl, fun hlt => absurd hlt (lt_irrefl _)⟩⟩

theorem CountStep.comp {x y z : Sim} (h1 : CountStep x y) (h2 : CountStep y z) :
    CountStep x z := by
  obtain ⟨a1, b1, c1⟩ := h1
  obtain ⟨a2, b2, c2⟩ := h2
  refine ⟨le_trans a1 a2, fun v => le_trans (b1 v) (b2 v), fun t => ?_⟩
  obtain ⟨d1, e1, f1⟩ := c1 t
  obtain ⟨d2, e2, f2⟩ := c2 t
  have hb1 := b1 (.ownTrade t)
  have hb2 := b2 (.ownTrade t)
  refine ⟨?_, ?_, ?_⟩
  · -- at most one of the two stages can push t: a first-stage push forces
    -- t.trade_id < y.trade_id, which forbids a second-stage push
    by_cases hinc : (x.strategy_updates_queue.entries.map Prod.snd).count (.ownTrade t) <
        (y.strategy_updates_queue.entries.map Prod.snd).count (.ownTrade t)
    · have := (f1 hinc).2
      have := e2 (f1 hinc).2
      omega
    · omega
  · intro hlt
    rw [e2 (lt_of_lt_of_le hlt a1), e1 hlt]
  · intro hlt
    by_cases hinc : (y.strategy_updates_queue.entries.map Prod.snd).count (.ownTrade t) <
        (z.strategy_updates_queue.entries.map Prod.snd).count (.ownTrade t)
    · have := f2 hinc
      omega
    · have hinc1 : (x.strategy_updates_queue.entries.map Prod.snd).count (.ownTrade t) <
          (y.strategy_updates_queue.entries.map Prod.snd).count (.ownTrade t) := by omega
      have := f1 hinc1
      omega

theorem CountStep_apply_md (y : Sim) (m : MdUpdate) :
    CountStep y (y.apply_md m) := by
  have hq := (Sim.apply_md_spec y m).2.2.2.2.2.2.2.2.2
  have ht := (Sim.apply_md_spec y m).2.2.2.2.2.1
  refine ⟨le_of_eq ht.symm, fun v => ?_, fun t => ?_⟩
  · rw [hq, PriorQueue.count_push]
    omega
  · rw [hq, ht, PriorQueue.count_push]
    simp only [reduceCtorEq, if_false]
    exact ⟨by omega, fun _ => by omega, fun hlt => absurd hlt (by omega)⟩

theorem CountStep_execute_last_order (y s2 : Sim)
    (h : y.execute_last_order = some s2) : CountStep y s2 := by
  rcases Sim.execute_last_order_queue y s2 h with ⟨hq, ht⟩ | ⟨tA, hid, ht, hq⟩
  · exact CountStep_of_eq y s2 hq ht
  · refine ⟨by omega, fun v => ?_, fun t => ?_⟩
    · rw [hq, PriorQueue.count_push]
      omega
    · rw [hq, ht, PriorQueue.count_push]
      by_cases he : (StratUpdate.ownTrade tA) = (StratUpdate.ownTrade t)
      · have htid : tA.trade_id = t.trade_id := by
          cases he
          rfl
        rw [if_pos he]
        refine ⟨by omega, fun hlt => by omega, fun _ => by omega⟩
      · rw [if_neg he]
        exact ⟨by omega, fun _ => by omega, fun hlt => absurd hlt (by omega)⟩

theorem CountStep_execute_orders (y s3 : Sim)
    (h : y.execute_orders = some s3) : CountStep y s3 := by
  obtain ⟨ts, hids, ht, hq⟩ := Sim.execute_orders_queue y s3 h
  obtain ⟨hc1, hcm⟩ := trades_consecutive_count y.trade_id ts hids
  refine ⟨by omega, fun v => ?_, fun t => ?_⟩
  · rw [hq, count_foldl_push]
    omega
  · rw [hq, ht, count_foldl_push,
      List.count_map_of_injective ts StratUpdate.ownTrade
        (fun a b hab => by injection hab) t]
    refine ⟨?_, ?_, ?_⟩
    · have := hc1 t
      omega
    · intro hlt
      have hz : ts.count t = 0 := by
        by_contra hnz
        have hm := List.count_pos_iff.mp (Nat.pos_of_ne_zero hnz)
        have := (hcm t hm).1
        omega
      omega
    · intro hlt
      have hnz : 0 < ts.count t := by omega
      have hm := List.count_pos_iff.mp hnz
      have := hcm t hm
      omega

/-- One loop iteration only ever pushes: it is a `CountStep`. -/
theorem Sim.tickStep_CountStep (x x' : Sim) (h : x.tickStep = some x') :
    CountStep x x' := by
  by_cases hmd : x.get_md_queue_event_time ≤ x.get_actions_queue_event_time
  · cases hqm : x.md_queue with
    | nil => rw [Sim.tickStep_md_nil x hmd hqm] at h; simp at h
    | cons m rest =>
      by_cases hact : x.get_actions_queue_event_time ≤ x.get_md_queue_event_time
      · cases hqa : x.actions_queue with
        | nil =>
          exfalso
          rw [Sim.get_actions_queue_event_time, Sim.get_md_queue_event_time, hqa, hqm] at hact
          exact (WithTop.coe_ne_top (top_le_iff.mp hact)).elim
        | cons a arest =>
          rw [Sim.tickStep_tie x m rest a arest hmd hact hqm hqa] at h
          cases he : (Sim.update_action
              { Sim.apply_md { x with md_queue := rest } m with actions_queue := arest }
              a).execute_last_order with
          | none => rw [he] at h; simp at h
          | some s2 =>
            rw [he] at h
            simp only [Option.bind] at h
            cases he3 : s2.execute_orders with
            | none => rw [he3] at h; simp at h
            | some s3 =>
              rw [he3] at h
              simp only [Option.map] at h
              cases h
              have c1 : CountStep x (Sim.apply_md { x with md_queue := rest } m) :=
                (CountStep_of_eq x { x with md_queue := rest } rfl rfl).comp
                  (CountStep_apply_md { x with md_queue := rest } m)
              have c2 : CountStep x (Sim.update_action
                  { Sim.apply_md { x with md_queue := rest } m with actions_queue := arest }
                  a) :=
                (c1.comp (CountStep_of_eq _ _ rfl rfl)).comp
                  (CountStep_of_eq _ _
                    (Sim.update_action_fields _ a).2.2.1
                    (Sim.update_action_fields _ a).2.2.2.2.2.2.2.2.2.1)
              have c3 := c2.comp (CountStep_execute_last_order _ s2 he)
              have c4 := c3.comp (CountStep_execute_orders s2 s3 he3)
              exact c4.comp (CountStep_of_eq s3 s3.delete_last_trade rfl rfl)
      · rw [Sim.tickStep_md_only x m rest hmd hact hqm] at h
        cases he3 : (Sim.apply_md { x with md_queue := rest } m).execute_orders with
        | none => rw [he3] at h; simp at h
        | some s3 =>
          rw [he3] at h
          simp only [Option.map] at h
          cases h
          have c1 : CountStep x (Sim.apply_md { x with md_queue := rest } m) :=
            (CountStep_of_eq x { x with md_queue := rest } rfl rfl).comp
              (CountStep_apply_md { x with md_queue := rest } m)
          have c2 := c1.comp (CountStep_execute_orders _ s3 he3)
          exact c2.comp (CountStep_of_eq s3 s3.delete_last_trade rfl rfl)
  · cases hqa : x.actions_queue with
    | nil =>
      exfalso
      apply hmd
      rw [Sim.get_actions_queue_event_time, hqa]
      exact le_top
    | cons a arest =>
      rw [Sim.tickStep_action_only x a arest hmd hqa] at h
      cases he : (Sim.update_action { x with actions_queue := arest } a).execute_last_order with
      | none => rw [he] at h; simp at h
      | some s2 =>
        rw [he] at h
        simp only [Option.map] at h
        cases h
        have c1 : CountStep x (Sim.update_action { x with actions_queue := arest } a) :=
          (CountStep_of_eq x { x with actions_queue := arest } rfl rfl).comp
            (CountStep_of_eq _ _
              (Sim.update_action_fields _ a).2.2.1
              (Sim.update_action_fields _ a).2.2.2.2.2.2.2.2.2.1)
        have c2 := c1.comp (CountStep_execute_last_order _ s2 he)
        exact c2.comp (CountStep_of_eq s2 s2.delete_last_trade rfl rfl)

/-- The whole tick loop is a `CountStep`. -/
theorem Sim.tickLoop_CountStep (s sL : Sim) (h : s.tickLoop = some sL) :
    CountStep s sL :=
  Sim.tickLoop_invariant (CountStep s)
    (fun x x' hP hx => hP.comp (Sim.tickStep_CountStep x x' hx))
    (s.md_queue.length + s.actions_queue.length) s sL le_rfl
    (CountStep_of_eq s s rfl rfl) h

/-- Splitting a list at the takeWhile/dropWhile boundary splits its mapped
counts additively. -/
theorem count_takeWhile_dropWhile {α β : Type} [DecidableEq β] (p : α → Bool)
    (l : List α) (f : α → β) (v : β) :
    ((l.takeWhile p).map f).count v + ((l.dropWhile p).map f).count v =
      (l.map f).count v := by
  conv_rhs => rw [← List.takeWhile_append_dropWhile p l]
  rw [List.map_append, List.count_append]

/-- Popping conserves value counts: the returned batch and the remaining
queue together hold exactly the values the queue held. -/
theorem PriorQueue.pop_count {α : Type} [DecidableEq α] (q : PriorQueue α)
    (k : ℚ) (vs : List α) (q' : PriorQueue α) (h : q.pop = some (k, vs, q'))
    (v : α) :
    vs.count v + (q'.entries.map Prod.snd).count v =
      (q.entries.map Prod.snd).count v := by
  unfold PriorQueue.pop at h
  cases hq : q.entries with
  | nil => rw [hq] at h; simp at h
  | cons e L =>
    rw [hq] at h
    simp only [Option.some.injEq, Prod.mk.injEq] at h
    obtain ⟨hk, hvs, hq'⟩ := h
    rw [← hvs, ← hq']
    exact count_takeWhile_dropWhile _ (e :: L) Prod.snd v

/-- Number of copies of a value in the notification queue. -/
def queueCount (s : Sim) (v : StratUpdate) : ℕ :=
  (s.strategy_updates_queue.entries.map Prod.snd).count v

/-- Number of copies of a value across the batches a run has returned. -/
def deliveredCount (r : List (ℚ × List StratUpdate)) (v : StratUpdate) : ℕ :=
  (r.flatMap fun b => b.2).count v

theorem deliveredCount_cons (b : ℚ × List StratUpdate)
    (r : List (ℚ × List StratUpdate)) (v : StratUpdate) :
    deliveredCount (b :: r) v = b.2.count v + deliveredCount r v := by
  simp [deliveredCount, List.flatMap_cons, List.count_append]

/-- Freshness invariant: every own trade currently in the notification queue
sits there at most once and carries an id already claimed by the counter. It
holds at `Sim.init` (empty queue) and is preserved by every operation. -/
def FreshTrades (s : Sim) : Prop :=
  ∀ t : OwnTrade,
    queueCount s (.ownTrade t) ≤ 1 ∧
    (0 < queueCount s (.ownTrade t) → t.trade_id < s.trade_id)

theorem FreshTrades_of_CountStep {x x' : Sim} (hc : CountStep x x')
    (hJ : FreshTrades x) : FreshTrades x' := by
  obtain ⟨h1, h2, h3⟩ := hc
  intro t
  obtain ⟨d, e, f⟩ := h3 t
  obtain ⟨j1, j2⟩ := hJ t
  simp only [queueCount] at j1 j2 ⊢
  by_cases hid : t.trade_id < x.trade_id
  · rw [e hid]
    exact ⟨j1, fun _ => lt_of_lt_of_le hid h1⟩
  · have hz : (x.strategy_updates_queue.entries.map Prod.snd).count (.ownTrade t)
        = 0 := by
      by_contra hnz
      exact hid (j2 (Nat.pos_of_ne_zero hnz))
    refine ⟨by omega, fun hpos => ?_⟩
    have hlt : (x.strategy_updates_queue.entries.map Prod.snd).count (.ownTrade t) <
        (x'.strategy_updates_queue.entries.map Prod.snd).count (.ownTrade t) := by
      omega
    exact (f hlt).2

/-- Accounting for one `tick`: the loop only pushes (`CountStep`), and the
final pop moves values from the queue into the returned batch one-for-one. -/
theorem Sim.tick_count (s : Sim) (b : ℚ × List StratUpdate) (s' : Sim)
    (h : s.tick = some (b, s')) :
    ∃ sL : Sim, s.tickLoop = some sL ∧ CountStep s sL ∧
      s'.trade_id = sL.trade_id ∧
      ∀ v : StratUpdate, b.2.count v + queueCount s' v = queueCount sL v := by
  cases hL : s.tickLoop with
  | none =>
    simp only [Sim.tick, hL] at h
    exact Option.noConfusion h
  | some sL =>
    simp only [Sim.tick, hL] at h
    cases hp : sL.strategy_updates_queue.pop with
    | none =>
      simp only [hp] at h
      exact Option.noConfusion h
    | some r =>
      obtain ⟨k, vs, q'⟩ := r
      simp only [hp, Option.some.injEq, Prod.mk.injEq] at h
      obtain ⟨hb, hs⟩ := h
      subst hs
      refine ⟨sL, rfl, Sim.tickLoop_CountStep s sL hL, rfl, fun v => ?_⟩
      rw [← hb]
      simp only [queueCount]
      exact PriorQueue.pop_count sL.strategy_updates_queue k vs q' hp v

theorem Sim.tick_FreshTrades (s : Sim) (b : ℚ × List StratUpdate) (s' : Sim)
    (h : s.tick = some (b, s')) (hJ : FreshTrades s) : FreshTrades s' := by
  obtain ⟨sL, hL, hc, htid, hcons⟩ := Sim.tick_count s b s' h
  have hJL : FreshTrades sL := FreshTrades_of_CountStep hc hJ
  intro t
  obtain ⟨j1, j2⟩ := hJL t
  have hv := hcons (.ownTrade t)
  refine ⟨by omega, fun hpos => ?_⟩
  rw [htid]
  exact j2 (by omega)

/-- A run never drops a queued value: it is delivered in some batch or still
queued at the end. -/
theorem Sim.run_not_dropped :
    ∀ (fuel : ℕ) (s : Sim) (v : StratUpdate),
      queueCount s v ≤ deliveredCount (Sim.runTicks fuel s).1 v +
        queueCount (Sim.runTicks fuel s).2 v := by
  intro fuel
  induction fuel with
  | zero =>
    intro s v
    simp [Sim.runTicks, deliveredCount]
  | succ n ih =>
    intro s v
    cases ht : s.tick with
    | none => simp [Sim.runTicks, ht, deliveredCount]
    | some r =>
      obtain ⟨b, s'⟩ := r
      obtain ⟨sL, hL, hc, htid, hcons⟩ := Sim.tick_count s b s' ht
      have hmono := hc.2.1 v
      have hv := hcons v
      have hih := ih s' v
      simp only [Sim.runTicks, ht]
      rw [deliveredCount_cons]
      simp only [queueCount] at hmono hv hih ⊢
      omega

/-- A trade value absent from the queue whose id the counter has already
passed can never reappear: fresh pushes use larger ids. -/
theorem Sim.run_stale :
    ∀ (fuel : ℕ) (s : Sim) (t : OwnTrade), t.trade_id < s.trade_id →
      queueCount s (.ownTrade t) = 0 →
      deliveredCount (Sim.runTicks fuel s).1 (.ownTrade t) = 0 ∧
      queueCount (Sim.runTicks fuel s).2 (.ownTrade t) = 0 := by
  intro fuel
  induction fuel with
  | zero =>
    intro s t hid hq
    refine ⟨by simp [Sim.runTicks, deliveredCount], by simpa [Sim.runTicks] using hq⟩
  | succ n ih =>
    intro s t hid hq
    cases ht : s.tick with
    | none =>
      refine ⟨by simp [Sim.runTicks, ht, deliveredCount],
        by simpa [Sim.runTicks, ht] using hq⟩
    | some r =>
      obtain ⟨b, s'⟩ := r
      obtain ⟨sL, hL, hc, htid, hcons⟩ := Sim.tick_count s b s' ht
      have hexact := (hc.2.2 t).2.1 hid
      have hv := hcons (.ownTrade t)
      simp only [queueCount] at hv hq
      rw [hq] at hexact
      have hb0 : b.2.count (.ownTrade t) = 0 := by omega
      have hq' : queueCount s' (.ownTrade t) = 0 := by
        simp only [queueCount]
        omega
      have hid' : t.trade_id < s'.trade_id := by
        rw [htid]
        exact lt_of_lt_of_le hid hc.1
      obtain ⟨hd, hqe⟩ := ih s' t hid' hq'
      simp only [Sim.runTicks, ht]
      rw [deliveredCount_cons]
      constructor
      · rw [hb0, hd]
      · exact hqe

/-- Under the freshness invariant no own trade is ever duplicated: across all
batches a run returns plus the queue it leaves, each trade value occurs at
most once. -/
theorem Sim.run_own_trade_at_most_once :
    ∀ (fuel : ℕ) (s : Sim), FreshTrades s → ∀ t : OwnTrade,
      deliveredCount (Sim.runTicks fuel s).1 (.ownTrade t) +
        queueCount (Sim.runTicks fuel s).2 (.ownTrade t) ≤ 1 := by
  intro fuel
  induction fuel with
  | zero =>
    intro s hJ t
    simpa [Sim.runTicks, deliveredCount] using (hJ t).1
  | succ n ih =>
    intro s hJ t
    cases ht : s.tick with
    | none => simpa [Sim.runTicks, ht, deliveredCount] using (hJ t).1
    | some r =>
      obtain ⟨b, s'⟩ := r
      obtain ⟨sL, hL, hc, htid, hcons⟩ := Sim.tick_count s b s' ht
      have hJL : FreshTrades sL := FreshTrades_of_CountStep hc hJ
      have hJ' : FreshTrades s' := Sim.tick_FreshTrades s b s' ht hJ
      have hv := hcons (.ownTrade t)
      have hb1 := (hJL t).1
      simp only [Sim.runTicks, ht]
      rw [deliveredCount_cons]
      by_cases hbz : b.2.count (.ownTrade t) = 0
      · have := ih s' hJ' t
        omega
      · have hqs' : queueCount s' (.ownTrade t) = 0 := by omega
        have hid : t.trade_id < s'.trade_id := by
          rw [htid]
          exact (hJL t).2 (by omega)
        obtain ⟨hd0, hq0⟩ := Sim.run_stale n s' t hid hqs'
        omega

/-- C6: delivery is exactly-once. With no actions submitted, the
concatenation of all `tick` batches is exactly the input market-data
sequence, in input order, every update counted once, each inside the batch
keyed by its own receive timestamp (conjuncts 1–3). A pop hands out
precisely the leading minimum-key group of the notification queue and
leaves exactly the rest (conjunct 4). At the push sites: `update_md` pushes
the consumed update exactly once, keyed by its receive timestamp, without
touching the trade counter (5); an aggressive fill pushes exactly one own
trade, keyed by its receive timestamp and carrying the fresh counter id, and
a non-fill pushes nothing (6); the passive pass pushes one own trade per
fill, each keyed by its receive timestamp with consecutive fresh ids (7).
Each `tick` conserves counts: the returned batch plus the remaining queue
hold exactly what the loop-final queue held, and in-queue counts never
decrease across the loop (8). `place_order` and `cancel_order` touch neither
the notification queue nor the trade counter (9). Hence over any run, from
any start state: no queued value is ever dropped — it ends up delivered or
still queued (10); under the freshness invariant (which holds at `Sim.init`,
conjunct 13) no own-trade value is delivered or retained more than once in
total (11); so an own trade sitting in the queue once is delivered in
exactly one batch or still queued, total exactly one (12). -/
theorem delivery_exactly_once (mds : List MdUpdate) (el ml : ℚ)
    (hsorted : List.Pairwise (fun a b => a.receive_ts ≤ b.receive_ts) mds) :
    (((Sim.init mds el ml).runTicks mds.length).1.flatMap fun b => b.2) =
      mds.map StratUpdate.mdUpd ∧
    (∀ u : MdUpdate,
      ((((Sim.init mds el ml).runTicks mds.length).1.flatMap fun b => b.2).count
        (StratUpdate.mdUpd u)) = mds.count u) ∧
    (∀ b ∈ ((Sim.init mds el ml).runTicks mds.length).1, ∀ v ∈ b.2,
      ∃ r, v = StratUpdate.mdUpd r ∧ r.receive_ts = b.1) ∧
    (∀ (q : PriorQueue StratUpdate) (k : ℚ) (vs : List StratUpdate)
        (q' : PriorQueue StratUpdate), q.pop = some (k, vs, q') →
      (q.entries.takeWhile fun e => decide (e.1 = k)).map Prod.snd = vs ∧
      (q.entries.takeWhile fun e => decide (e.1 = k)) ++ q'.entries = q.entries) ∧
    (∀ (x : Sim) (m : MdUpdate),
      (x.apply_md m).strategy_updates_queue =
        x.strategy_updates_queue.push m.receive_ts (.mdUpd m) ∧
      (x.apply_md m).trade_id = x.trade_id) ∧
    (∀ x x' : Sim, x.execute_last_order = some x' →
      (x'.strategy_updates_queue = x.strategy_updates_queue ∧
        x'.trade_id = x.trade_id) ∨
      (∃ t : OwnTrade, t.trade_id = x.trade_id ∧ x'.trade_id = x.trade_id + 1 ∧
        x'.strategy_updates_queue =
          x.strategy_updates_queue.push t.receive_ts (.ownTrade t))) ∧
    (∀ x x' : Sim, x.execute_orders = some x' →
      ∃ ts : List OwnTrade,
        (∀ i (h : i < ts.length), (ts.get ⟨i, h⟩).trade_id = x.trade_id + i) ∧
        x'.trade_id = x.trade_id + ts.length ∧
        x'.strategy_updates_queue =
          ts.foldl (fun q t => q.push t.receive_ts (.ownTrade t))
            x.strategy_updates_queue) ∧
    (∀ (x : Sim) (b : ℚ × List StratUpdate) (x' : Sim), x.tick = some (b, x') →
      ∃ sL : Sim, x.tickLoop = some sL ∧ x.trade_id ≤ sL.trade_id ∧
        x'.trade_id = sL.trade_id ∧
        (∀ v : StratUpdate, queueCount x v ≤ queueCount sL v) ∧
        (∀ v : StratUpdate, b.2.count v + queueCount x' v = queueCount sL v)) ∧
    (∀ (x : Sim) (ts sz px : ℚ) (sd : Side) (ok : OrderKind),
      (x.place_order ts sz sd px ok).2.strategy_updates_queue =
        x.strategy_updates_queue ∧
      (x.place_order ts sz sd px ok).2.trade_id = x.trade_id) ∧
    (∀ (x : Sim) (ts : ℚ) (idd : ℕ),
      (x.cancel_order ts idd).2.strategy_updates_queue =
        x.strategy_updates_queue ∧
      (x.cancel_order ts idd).2.trade_id = x.trade_id) ∧
    (∀ (fuel : ℕ) (x : Sim) (v : StratUpdate),
      queueCount x v ≤ deliveredCount (x.runTicks fuel).1 v +
        queueCount (x.runTicks fuel).2 v) ∧
    (∀ (fuel : ℕ) (x : Sim), FreshTrades x → ∀ t : OwnTrade,
      deliveredCount (x.runTicks fuel).1 (.ownTrade t) +
        queueCount (x.runTicks fuel).2 (.ownTrade t) ≤ 1) ∧
    (∀ (fuel : ℕ) (x : Sim), FreshTrades x → ∀ t : OwnTrade,
      queueCount x (.ownTrade t) = 1 →
      deliveredCount (x.runTicks fuel).1 (.ownTrade t) +
        queueCount (x.runTicks fuel).2 (.ownTrade t) = 1) ∧
    FreshTrades (Sim.init mds el ml) := by
  obtain ⟨hA, hB, -, -⟩ :=
    Sim.run_no_actions mds.length [] mds (Sim.init mds el ml)
      (by simp) rfl rfl rfl rfl rfl (by simpa using hsorted)
  have hA' : (((Sim.init mds el ml).runTicks mds.length).1.flatMap fun b => b.2) =
      mds.map StratUpdate.mdUpd := by simpa using hA
  refine ⟨hA', ?_, by simpa using hB, ?_, ?_, ?_, ?_, ?_, ?_, ?_, ?_, ?_, ?_, ?_⟩
  · intro u
    rw [hA']
    exact List.count_map_of_injective mds StratUpdate.mdUpd
      (fun a b h => by injection h) u
  · intro q k vs q' hpop
    unfold PriorQueue.pop at hpop
    cases hq : q.entries with
    | nil => rw [hq] at hpop; simp at hpop
    | cons e L =>
      rw [hq] at hpop
      simp only [Option.some.injEq, Prod.mk.injEq] at hpop
      obtain ⟨hk, hvs, hq'⟩ := hpop
      subst hk
      constructor
      · exact hvs
      · rw [← hq']
        exact List.takeWhile_append_dropWhile _ _
  · intro x m
    exact ⟨(Sim.apply_md_spec x m).2.2.2.2.2.2.2.2.2,
      (Sim.apply_md_spec x m).2.2.2.2.2.1⟩
  · intro x x' h
    exact Sim.execute_last_order_queue x x' h
  · intro x x' h
    exact Sim.execute_orders_queue x x' h
  · intro x b x' h
    obtain ⟨sL, hL, hc, htid, hcons⟩ := Sim.tick_count x b x' h
    exact ⟨sL, hL, hc.1, htid, fun v => hc.2.1 v, hcons⟩
  · intro x ts sz px sd ok
    exact ⟨rfl, rfl⟩
  · intro x ts idd
    exact ⟨rfl, rfl⟩
  · exact Sim.run_not_dropped
  · exact Sim.run_own_trade_at_most_once
  · intro fuel x hJ t hone
    have hge := Sim.run_not_dropped fuel x (.ownTrade t)
    have hle := Sim.run_own_trade_at_most_once fuel x hJ t
    omega
  · intro t
    simp [FreshTrades, queueCount, Sim.init, PriorQueue.empty]

/-- C6 witness: two updates delivered once each, in order. -/
theorem delivery_exactly_once_witness :
    (((Sim.init [⟨0, 1, none, none⟩, ⟨2, 3, none, none⟩] 0 0).runTicks
        [(⟨0, 1, none, none⟩ : MdUpdate), ⟨2, 3, none, none⟩].length).1.flatMap
      fun b => b.2) =
      [⟨0, 1, none, none⟩, (⟨2, 3, none, none⟩ : MdUpdate)].map StratUpdate.mdUpd :=
  (delivery_exactly_once [⟨0, 1, none, none⟩, ⟨2, 3, none, none⟩] 0 0 (by decide)).1

/-- C9: after a no-actions run over a receive-timestamp-ordered sequence of N
market-data updates, the engine's best bid and ask are exactly the last row
of the analytics replay `md_to_dataframe`, which folds the Best-Price
Tracker from `(-∞, +∞)` over the same N updates. -/
theorem best_price_tracker_refinement (mds : List MdUpdate) (el ml : ℚ)
    (hsorted : List.Pairwise (fun a b => a.receive_ts ≤ b.receive_ts) mds) :
    (((Sim.init mds el ml).runTicks mds.length).2.best_bid,
     ((Sim.init mds el ml).runTicks mds.length).2.best_ask) =
      (md_to_dataframe mds).getLastD (⊥, ⊤) := by
  obtain ⟨-, -, hC, hD⟩ :=
    Sim.run_no_actions mds.length [] mds (Sim.init mds el ml)
      (by simp) rfl rfl rfl rfl rfl (by simpa using hsorted)
  rw [md_to_dataframe, md_to_dataframe_go_getLastD, hC, hD]
  exact Prod.mk.eta

/-- C9 witness: a single snapshot with best bid 99 and best ask 101. -/
theorem best_price_tracker_refinement_witness :
    ((((Sim.init [⟨0, 1, some ⟨0, 1, [(101, 1)], [(99, 2)]⟩, none⟩] 0 0).runTicks
        [(⟨0, 1, some ⟨0, 1, [(101, 1)], [(99, 2)]⟩, none⟩ : MdUpdate)].length).2.best_bid),
     (((Sim.init [⟨0, 1, some ⟨0, 1, [(101, 1)], [(99, 2)]⟩, none⟩] 0 0).runTicks
        [(⟨0, 1, some ⟨0, 1, [(101, 1)], [(99, 2)]⟩, none⟩ : MdUpdate)].length).2.best_ask)) =
      (md_to_dataframe [⟨0, 1, some ⟨0, 1, [(101, 1)], [(99, 2)]⟩, none⟩]).getLastD (⊥, ⊤) :=
  best_price_tracker_refinement [⟨0, 1, some ⟨0, 1, [(101, 1)], [(99, 2)]⟩, none⟩] 0 0
    (by decide)

end HFTSim
